import Mathlib

/-!
Verification of the shortest-path enumerator, graph validator, path presenter and
guess-session of `travle.py`.

The Python program works on a `dict` mapping node labels to neighbor lists.  We embed it
as an association list `Graph α := List (α × List α)` with first-match lookup (Python
dicts have unique keys, insert new keys at the end, and preserve insertion order).  The
functions `bfs`, `get_paths`, `get_paths_aux`, `check_entries`, `check_adjacency`,
`check_connectedness`, `check_graph`, `get_remaining_paths`, `print_incomplete_path` and
the per-turn body of `game` are translated below; Python runtime errors (KeyError,
IndexError, pop from an empty list, `None.append`, `next(iter({}))`) and unbounded loops
(modelled with explicit fuel) are mapped to `none`.
-/

namespace Travle

variable {α : Type} {β : Type}

/-- Association-list lookup, modelling Python dict indexing `m[k]` (`none` = KeyError). -/
def alookup [DecidableEq α] : List (α × β) → α → Option β
  | [], _ => none
  | (k', v) :: rest, k => if k = k' then some v else alookup rest k

/-- Association-list store, modelling Python dict assignment `m[k] = v`: an existing key
keeps its position, a new key is appended at the end (dict insertion order). -/
def aupdate [DecidableEq α] : List (α × β) → α → β → List (α × β)
  | [], k, v => [(k, v)]
  | (k', v') :: rest, k, v =>
    if k = k' then (k, v) :: rest else (k', v') :: aupdate rest k v

/-- A graph as loaded by `parse`: label ↦ neighbor list. -/
abbrev Graph (α : Type) := List (α × List α)

/-- The keys of the graph dict. -/
def keys (g : Graph α) : List α := g.map Prod.fst

/-- Neighbor list of `v` (`graph[v]`, defaulting to `[]` for reasoning purposes;
the executable functions below use `alookup` directly so that a KeyError is visible). -/
def nbrs [DecidableEq α] (g : Graph α) (v : α) : List α := (alookup g v).getD []

/-- Directed adjacency as the program reads it: `v` occurs in `graph[u]`. -/
def adj [DecidableEq α] (g : Graph α) (u v : α) : Prop := v ∈ nbrs g u

instance [DecidableEq α] (g : Graph α) (u v : α) : Decidable (adj g u v) :=
  inferInstanceAs (Decidable (v ∈ nbrs g u))

/-- A structurally recursive decider for `List.Chain` (the library instance is stated
with an `Eq.rec` and does not evaluate by kernel reduction). -/
def chainDec {R : α → α → Prop} [d : DecidableRel R] :
    (a : α) → (l : List α) → Decidable (List.Chain R a l)
  | _, [] => isTrue List.Chain.nil
  | a, b :: l =>
    match d a b with
    | isFalse h => isFalse (fun hc => h (List.chain_cons.mp hc).1)
    | isTrue h1 =>
      match chainDec b l with
      | isTrue h2 => isTrue (List.Chain.cons h1 h2)
      | isFalse h2 => isFalse (fun hc => h2 (List.chain_cons.mp hc).2)

instance (priority := 2000) {R : α → α → Prop} [DecidableRel R] (a : α) (l : List α) :
    Decidable (List.Chain R a l) := chainDec a l

/-- `p` is the node sequence of a walk that starts at `u`, follows graph adjacency, and
ends at `v`; `p` excludes the start node, so `p.length` is the walk's edge count.
(`p = []` is the empty walk, forcing `u = v`.) -/
def IsPath [DecidableEq α] (g : Graph α) (u v : α) (p : List α) : Prop :=
  List.Chain (adj g) u p ∧ (u :: p).getLast? = some v

instance [DecidableEq α] (g : Graph α) (u v : α) (p : List α) : Decidable (IsPath g u v p) :=
  inferInstanceAs (Decidable (_ ∧ _))

/-- `v` is reachable from `u` by some walk. -/
def Reach [DecidableEq α] (g : Graph α) (u v : α) : Prop := ∃ p, IsPath g u v p

/-- The graph invariants of a valid graph: every referenced neighbor is a key (closed),
adjacency is symmetric, and the graph is connected — the three properties `check_graph`
is meant to establish — together with the spec's data-model invariant (§3) that each
node maps to a *set* of neighbors, i.e. a duplicate-free neighbor list. -/
structure ValidGraph [DecidableEq α] (g : Graph α) : Prop where
  closed : ∀ u ∈ keys g, ∀ v ∈ nbrs g u, v ∈ keys g
  symm : ∀ u ∈ keys g, ∀ v ∈ nbrs g u, adj g v u
  conn : ∀ u ∈ keys g, ∀ v ∈ keys g, Reach g u v
  nbrs_nodup : ∀ u ∈ keys g, (nbrs g u).Nodup

/-- `d` is the length (edge count) of a shortest walk from `s` to `t`. -/
def IsShortestDist [DecidableEq α] (g : Graph α) (s t : α) (d : Nat) : Prop :=
  (∃ p, IsPath g s t p ∧ p.length = d) ∧ ∀ p, IsPath g s t p → d ≤ p.length

/-- The mutable state of the `while` loop of `bfs`: `visited` (a Python set, modelled by
a list used only up to membership), the FIFO `queue`, and `parent_map`, whose value is
`none` exactly for the Python `None` sentinel stored at the source. -/
structure BfsState (α : Type) where
  visited : List α
  queue : List α
  pm : List (α × Option (List α))

/-- The `for neighbor in unvisitedNeighbors` body of `bfs`: append the neighbor to the
queue unless it is already queued, and record `current` as one more parent.  The
`some none` case is Python `parent_map[neighbor].append(current)` on the `None` stored
at the source — an AttributeError, hence `none` (it is unreachable because the source is
always in `visited`). -/
def processNbrs [DecidableEq α] (current : α) :
    List α → List α → List (α × Option (List α)) →
    Option (List α × List (α × Option (List α)))
  | [], q, pm => some (q, pm)
  | n :: ns, q, pm =>
    let q' := if n ∈ q then q else q ++ [n]
    match alookup pm n with
    | some (some ps) => processNbrs current ns q' (aupdate pm n (some (ps ++ [current])))
    | some none => none
    | none => processNbrs current ns q' (aupdate pm n (some [current]))

/-- The `while current != target` loop of `bfs`.  One fuel unit per iteration; `none`
models non-termination, `queue.pop(0)` on an empty list, or a KeyError on
`graph[current]`. -/
def bfsLoop [DecidableEq α] (g : Graph α) (target : α) :
    Nat → α → BfsState α → Option (BfsState α)
  | 0, _, _ => none
  | fuel + 1, current, st =>
    if current = target then some st
    else
      match st.queue with
      | [] => none
      | c :: rest =>
        let visited' := c :: st.visited
        match alookup g c with
        | none => none
        | some nbrsC =>
          let unvisited := nbrsC.filter (fun n => decide (n ∉ visited'))
          match processNbrs c unvisited rest st.pm with
          | none => none
          | some (q', pm') => bfsLoop g target fuel c ⟨visited', q', pm'⟩

/-- The measurement loop of `bfs` after the BFS loop exits (`current = target`):
`path = []; while current != source: path.append(current); current = parent_map[current][0]`.
Returns the accumulated `path`; `minimum` is its length.  `none` models a missing key,
indexing `[0]` into an empty parent list, or subscripting the `None` sentinel. -/
def distWalk [DecidableEq α] (source : α) (pm : List (α × Option (List α))) :
    Nat → α → List α → Option (List α)
  | 0, _, _ => none
  | fuel + 1, current, path =>
    if current = source then some path
    else
      match alookup pm current with
      | some (some (p :: _)) => distWalk source pm fuel p (path ++ [current])
      | _ => none

/-- The `for parent in parent_map[node]` loop of `get_paths_aux`.  All recursive calls of
one loop share the caller's `new_path` list object; the only statement that mutates a
*received* object is `path.reverse()` in the base case of `get_paths_aux`, so each call
returns the final state of the list object it was given, and this loop threads that
state from one parent to the next. -/
def runParents (f : List α → α → Option (List (List α) × List α)) :
    List α → List α → Option (List (List α) × List α)
  | cur, [] => some ([], cur)
  | cur, u :: us =>
    match f cur u with
    | none => none
    | some (r₁, cur₁) =>
      match runParents f cur₁ us with
      | none => none
      | some (r₂, cur₂) => some (r₁ ++ r₂, cur₂)

/-- `get_paths_aux(paths, path, source, node, parent_map, minimum)`.  The Python
function appends found paths to the shared `paths` accumulator; here they are the first
component of the result.  The second component is the final state of the `path` list
object (mutated in place by `path.reverse()` in the sentinel case, returned unchanged
otherwise — the recursive case mutates only the fresh `new_path = path.copy()+[node]`).
Recursion depth is bounded by the `len(path) > minimum` pruning; fuel covers it. -/
def get_paths_aux [DecidableEq α] (source : α) (pm : List (α × Option (List α)))
    (minimum : Nat) : Nat → List α → α → Option (List (List α) × List α)
  | 0, _, _ => none
  | fuel + 1, path, node =>
    if minimum < path.length then some ([], path)
    else
      match alookup pm node with
      | none => none
      | some none => some ([path.reverse], path.reverse)
      | some (some parents) =>
        match runParents (get_paths_aux source pm minimum fuel) (path ++ [node]) parents with
        | none => none
        | some (r, _) => some (r, path)

/-- `get_paths`: run the reconstruction from the target and sort the result
(Python `paths.sort()`, ascending lexicographic order on label sequences). -/
def get_paths [LinearOrder α] (source target : α) (pm : List (α × Option (List α)))
    (minimum : Nat) (fuel : Nat) : Option (List (List α)) :=
  match get_paths_aux source pm minimum fuel [] target with
  | none => none
  | some (r, _) => some (List.insertionSort (· ≤ ·) r)

/-- `bfs(graph, source, target)`.  Returns the sorted list of all minimum-length paths
(each path *excludes* the source and ends with the target) together with the minimum
distance.  The final Python `paths if paths else []` is the identity on lists and is
omitted.  Fuel: the loop dequeues each node at most once and the measurement walk is at
most the distance, so `g.length + 2` units suffice for every phase. -/
def bfs [LinearOrder α] (g : Graph α) (source target : α) :
    Option (List (List α) × Nat) :=
  if source = target then some ([], 0)
  else
    match bfsLoop g target (g.length + 1) source ⟨[], [source], [(source, none)]⟩ with
    | none => none
    | some st =>
      match distWalk source st.pm (g.length + 1) target [] with
      | none => none
      | some path =>
        match get_paths source target st.pm path.length (g.length + 2) with
        | none => none
        | some paths => some (paths, path.length)

/-- One reported violation, one constructor per `print` in the validator functions. -/
inductive Violation (α : Type) where
  | badSource (s : α)
  | badTarget (t : α)
  | notAKey (n : α)
  | asymmetric (node nbr : α)
  | disconnected (isolated : List α)
  deriving DecidableEq

/-- `check_entries`: error flag plus the messages it prints (it returns on the first
failing membership test, so at most one message). -/
def check_entries [DecidableEq α] (g : Graph α) (source target : α) :
    Bool × List (Violation α) :=
  if source ∉ keys g then (true, [.badSource source])
  else if target ∉ keys g then (true, [.badTarget target])
  else (false, [])

/-- Inner loop of `check_adjacency` over one node's neighbor list: first violation. -/
def check_adjacency_nbrs [DecidableEq α] (g : Graph α) (node : α) :
    List α → Option (Violation α)
  | [] => none
  | nbr :: rest =>
    if nbr ∉ keys g then some (.notAKey nbr)
    else if node ∉ nbrs g nbr then some (.asymmetric node nbr)
    else check_adjacency_nbrs g node rest

/-- Outer loop of `check_adjacency` over `graph.items()`: first violation. -/
def check_adjacency_items [DecidableEq α] (g : Graph α) :
    List (α × List α) → Option (Violation α)
  | [] => none
  | (node, nb) :: rest =>
    match check_adjacency_nbrs g node nb with
    | some v => some v
    | none => check_adjacency_items g rest

/-- `check_adjacency`: returns `True` and prints one message at the first violation. -/
def check_adjacency [DecidableEq α] (g : Graph α) : Bool × List (Violation α) :=
  match check_adjacency_items g g with
  | some v => (true, [v])
  | none => (false, [])

/-- The `while queue` loop of `check_connectedness` (`visited` is a list here, as in the
source); returns the final `visited`.  `none` = KeyError on `graph[current]` (possible
on a dangling neighbor) or fuel exhaustion. -/
def connLoop [DecidableEq α] (g : Graph α) : Nat → List α → List α → Option (List α)
  | 0, _, _ => none
  | fuel + 1, visited, queue =>
    match queue with
    | [] => some visited
    | c :: rest =>
      let visited' := visited ++ [c]
      match alookup g c with
      | none => none
      | some ns =>
        let unvis := ns.filter (fun n => decide (n ∉ visited'))
        let queue' := unvis.foldl (fun q n => if n ∈ q then q else q ++ [n]) rest
        connLoop g fuel visited' queue'

/-- Fuel sufficient for `connLoop`: every node enters the queue at most once, and only
the seed plus discovered neighbors ever enter. -/
def connFuel (g : Graph α) : Nat := (g.map (fun e => e.2.length)).sum + 2

/-- `check_connectedness`: BFS from the first key and compare counts.  `none` models
`next(iter(graph))` on an empty dict or a KeyError inside the loop. -/
def check_connectedness [DecidableEq α] (g : Graph α) :
    Option (Bool × List (Violation α)) :=
  match g with
  | [] => none
  | e :: _ =>
    match connLoop g (connFuel g) [] [e.1] with
    | none => none
    | some visited =>
      let disconnected := (keys g).filter (fun n => decide (n ∉ visited))
      if visited.length < g.length then some (true, [.disconnected disconnected])
      else some (false, [])

/-- `check_graph`: `check_entries(...) or check_adjacency(...) or check_connectedness(...)`
with Python's short-circuiting `or`.  Result: the aggregate error flag and the
concatenation of everything printed, in evaluation order. -/
def check_graph [DecidableEq α] (g : Graph α) (source target : α) :
    Option (Bool × List (Violation α)) :=
  let e1 := check_entries g source target
  if e1.1 then some (true, e1.2)
  else
    let e2 := check_adjacency g
    if e2.1 then some (true, e1.2 ++ e2.2)
    else
      match check_connectedness g with
      | none => none
      | some e3 => some (e3.1, e1.2 ++ e2.2 ++ e3.2)

/-- What running all three validator checks unconditionally would print: the
concatenation of the traces of `check_entries`, `check_adjacency` and
`check_connectedness` (spec: "All three checks run independently (do not short-circuit
on the first failure) so a caller can report every problem in one pass"). -/
def all_checks_trace [DecidableEq α] (g : Graph α) (source target : α) :
    Option (List (Violation α)) :=
  match check_connectedness g with
  | none => none
  | some e3 => some ((check_entries g source target).2 ++ (check_adjacency g).2 ++ e3.2)

/-- `get_remaining_paths(paths, guesses)`: keep the paths whose node set contains every
guess (`guesses.issubset(set(path))`). -/
def get_remaining_paths [DecidableEq α] (paths : List (List α)) (guesses : Finset α) :
    List (List α) :=
  paths.filter (fun p => decide (guesses ⊆ p.toFinset))

/-- The per-turn mutable state of `game`: `paths` (already target-trimmed — the
`path.pop(-1)` loop runs on the same list objects held by the shallow copy
`remaining_paths = paths.copy()`, so both collections are trimmed), the narrowed
`remaining_paths`, the guess set, and the mistake count. -/
structure GameState (α : Type) where
  paths : List (List α)
  remaining : List (List α)
  guesses : Finset α
  mistakes : Nat
  deriving DecidableEq

/-- The state of `game` right after `bfs` returned `paths` and the target was popped
from every path. -/
def initGame (paths : List (List α)) : GameState α :=
  ⟨paths.map List.dropLast, paths.map List.dropLast, ∅, 0⟩

/-- What `print_paths(source, target, paths)` shows on game over: the path count, the
printed "length" `len(paths[0])` (an IndexError — `none` — when `paths` is empty), and
each path rendered by `print_path(source, path + [target])` as the label sequence
`source :: path ++ [target]`. -/
structure RevealOut (α : Type) where
  count : Nat
  shown_len : Nat
  walks : List (List α)
  deriving DecidableEq

def print_paths_out [DecidableEq α] (source target : α) (paths : List (List α)) :
    Option (RevealOut α) :=
  match paths with
  | [] => none
  | p :: _ => some ⟨paths.length, p.length, paths.map (fun q => source :: (q ++ [target]))⟩

/-- Outcome of one iteration of the `while nb_mistakes < max_mistakes` loop of `game`
on one guess.  `won` carries the label sequence printed by
`print_path(source, path + [target])` and the final mistake count; `accepted` carries
the representative `remaining_paths[0]` handed to `print_incomplete_path`; `lost`
carries the `print_paths` reveal. -/
inductive TurnResult (α : Type) where
  | won (shown : List α) (mistakes : Nat)
  | accepted (shown : List α) (st : GameState α)
  | mistake (st : GameState α)
  | lost (reveal : RevealOut α) (st : GameState α)
  deriving DecidableEq

/-- One guess turn of `game`: add the guess to the guess set; return `won` at the first
path whose trimmed node set equals the guess set; otherwise, if the guess set is a
subset of some path's nodes, narrow `remaining_paths` and show its first element;
otherwise count a mistake, drop the guess, and end with the `print_paths` reveal when
the budget is reached.  The "is the source target"/"is the target country" messages
change no state and are not modelled.  `none` models `remaining_paths[0]` or
`paths[0]` on an empty list. -/
def gameStep [DecidableEq α] (source target : α) (max_mistakes : Nat)
    (st : GameState α) (guess : α) : Option (TurnResult α) :=
  let guesses := insert guess st.guesses
  match st.paths.find? (fun p => decide (p.length = guesses.card) &&
      decide (p.toFinset = guesses)) with
  | some p => some (.won (source :: (p ++ [target])) st.mistakes)
  | none =>
    match st.paths.find? (fun p => decide (guesses ⊆ p.toFinset)) with
    | some _ =>
      match get_remaining_paths st.remaining guesses with
      | [] => none
      | r :: rs => some (.accepted r ⟨st.paths, r :: rs, guesses, st.mistakes⟩)
    | none =>
      let nb := st.mistakes + 1
      let guesses' := guesses.erase guess
      if nb = max_mistakes then
        match print_paths_out source target st.remaining with
        | none => none
        | some out => some (.lost out ⟨st.paths, st.remaining, guesses', nb⟩)
      else some (.mistake ⟨st.paths, st.remaining, guesses', nb⟩)

/-- `print_incomplete_path(path, guesses)` emits its output through `print(..., end='')`
calls; `pipAux` accumulates those chunks into one string (the final bare `print()`
newline is left out).  `gap` is the flag of the source: it is set while inside a run of
unguessed nodes (for which one `"..."` was already printed), and cleared at each
guessed node. -/
def pipAux (guesses : Finset String) : Bool → List String → String
  | _, [] => ""
  | gap, x :: rest =>
    if x ∈ guesses then
      (if gap then " -> " else "") ++ x ++ (if rest.isEmpty then "" else " -> ") ++
        pipAux guesses false rest
    else
      if gap then pipAux guesses gap rest
      else "..." ++ pipAux guesses true rest

def print_incomplete_path (path : List String) (guesses : Finset String) : String :=
  pipAux guesses false path

/-- Modelled from the spec (§4.3 Path Presenter): the token sequence obtained from
`path` by keeping each known (guessed) node and collapsing every maximal run of
consecutive unknown nodes into a single ellipsis marker. -/
def collapseGaps (guesses : Finset String) : List String → List String
  | [] => []
  | x :: rest =>
    if x ∈ guesses then x :: collapseGaps guesses rest
    else "..." :: collapseGaps guesses (rest.dropWhile (fun y => decide (y ∉ guesses)))
termination_by l => l.length
decreasing_by
  · simp
  · simpa using Nat.lt_succ_of_le (List.dropWhile_suffix _).length_le

/-- Modelled from the spec (§4.3): tokens "separated by arrows". -/
def joinArrows : List String → String
  | [] => ""
  | [x] => x
  | x :: y :: rest => x ++ " -> " ++ joinArrows (y :: rest)

/-- Iterated game turns: feed the guesses one per loop iteration, continuing while the
loop continues (`accepted`/`mistake` below budget) and returning the result of the last
executed turn.  (`none` for an empty guess list or a modelled runtime error.) -/
def gameRun [DecidableEq α] (source target : α) (max_mistakes : Nat) :
    GameState α → List α → Option (TurnResult α)
  | _, [] => none
  | st, [g] => gameStep source target max_mistakes st g
  | st, g :: g' :: rest =>
    match gameStep source target max_mistakes st g with
    | some (.accepted _sh st') =>
      match gameRun source target max_mistakes st' (g' :: rest) with
      | none => none
      | some r => some r
    | some (.mistake st') =>
      match gameRun source target max_mistakes st' (g' :: rest) with
      | none => none
      | some r => some r
    | other => other

/-- The last node of the walk `u :: p` (the node a path `p` from `u` ends at). -/
def walkEnd (u : α) (p : List α) : α := (u :: p).getLast (List.cons_ne_nil u p)

/-- Some walk from `s` to `v` has at most `n` edges. -/
def dLe [DecidableEq α] (g : Graph α) (s v : α) (n : Nat) : Prop :=
  ∃ p, IsPath g s v p ∧ p.length ≤ n

/-- `n` is the exact BFS distance from `s` to `v`. -/
def dEq [DecidableEq α] (g : Graph α) (s v : α) (n : Nat) : Prop :=
  dLe g s v n ∧ ∀ m, dLe g s v m → n ≤ m

/-- Backward parent chains of a parent map: `Chains pm s node l` holds when `l` is the
node list accumulated by `get_paths_aux` along one branch from `node` down to the
source sentinel (`l = [node, …]` excludes the source; `l = []` exactly when
`node = s`). -/
inductive Chains [DecidableEq α] (pm : List (α × Option (List α))) (s : α) :
    α → List α → Prop where
  | nil : Chains pm s s []
  | cons {node u : α} {ps l : List α} :
      alookup pm node = some (some ps) → u ∈ ps → Chains pm s u l →
      Chains pm s node (node :: l)

/-- The three-node line graph `{X: [Y], Y: [X, Z], Z: [Y]}` of the spec's guess-session
scenario, with labels encoded as numbers: `X = 0`, `Y = 1`, `Z = 2` (label values are
immaterial; numbers keep concrete runs of `bfs` kernel-computable, which string
comparison is not). -/
def exG : Graph ℕ := [(0, [1]), (1, [0, 2]), (2, [1])]

/-- A five-node graph with two shortest `X → Z` paths (`X-A-C-Z` and `X-B-C-Z`), used to
exercise narrowing before the mistake budget is exhausted.  Labels: `X = 0`, `A = 1`,
`B = 2`, `C = 3`, `Z = 4`. -/
def gB : Graph ℕ :=
  [(0, [1, 2]), (1, [0, 3]), (2, [0, 3]), (3, [1, 2, 4]), (4, [3])]

/-- A graph with a dangling neighbor, whose adjacency check fails. -/
def gBad : Graph String := [("A", ["B"])]

/-- The facts about the finished `parent_map` that the reconstruction lemmas need:
only the source carries the `None` sentinel, parent lists are duplicate-free, and every
recorded parent is itself a key of the map. -/
structure PmGood [DecidableEq α] (pm : List (α × Option (List α))) (s : α) : Prop where
  src : alookup pm s = some none
  none_src : ∀ v, alookup pm v = some none → v = s
  good : ∀ v ps, alookup pm v = some (some ps) →
    ps.Nodup ∧ ∀ u ∈ ps, (alookup pm u).isSome

/-- The invariant of the `bfs` loop at a loop test.  `cur` is the value of `current` at
the test, `st` the state; `a` is the BFS layer being expanded, and the queue splits as
`A ++ B` where `A` is the not-yet-expanded remainder of layer `a` and `B` the
discovered part of layer `a + 1`. -/
structure BfsInvAt [DecidableEq α] (g : Graph α) (s t cur : α) (st : BfsState α)
    (a : Nat) (A B : List α) : Prop where
  queue_eq : st.queue = A ++ B
  layerA : ∀ x ∈ A, dEq g s x a
  layerB : ∀ x ∈ B, dEq g s x (a + 1)
  queue_nodup : st.queue.Nodup
  queue_vis : ∀ x ∈ st.queue, x ∉ st.visited
  vis_le : ∀ v ∈ st.visited, ∃ n, n ≤ a ∧ dEq g s v n
  lt_vis : ∀ v n, dEq g s v n → n < a → v ∈ st.visited
  closure : ∀ u ∈ st.visited, ∀ v ∈ nbrs g u, v ∈ st.visited ∨ v ∈ st.queue ∨ v = s
  pm_src : alookup st.pm s = some none
  pm_none : ∀ v, alookup st.pm v = some none → v = s
  pm_dom : ∀ v, (alookup st.pm v).isSome ↔ (v ∈ st.visited ∨ v ∈ st.queue ∨ v = s)
  pm_par : ∀ v ps, alookup st.pm v = some (some ps) → ps ≠ [] ∧ ps.Nodup ∧
    (∀ u ∈ ps, adj g u v ∧ u ∈ st.visited) ∧
    ∃ k h, dEq g s v k ∧ ps.head? = some h ∧ dEq g s h (k - 1) ∧ 1 ≤ k
  pm_rec : ∀ u v k, u ∈ st.visited → adj g u v → dEq g s u k → dEq g s v (k + 1) →
    ∃ ps, alookup st.pm v = some (some ps) ∧ u ∈ ps
  vis_keys : ∀ v ∈ st.visited, v ∈ keys g
  queue_keys : ∀ v ∈ st.queue, v ∈ keys g
  vis_nodup : st.visited.Nodup
  target_not : t ∉ st.visited ∨ cur = t
  base_or : (st.visited = [] ∧ st.queue = [s] ∧ st.pm = [(s, none)] ∧ cur = s ∧ a = 0)
    ∨ (s ∈ st.visited ∧ cur ∈ st.visited)

/-- The loop invariant, with the layer decomposition packed existentially. -/
def BfsInv [DecidableEq α] (g : Graph α) (s t cur : α) (st : BfsState α) : Prop :=
  ∃ a A B, BfsInvAt g s t cur st a A B

/-! ### Association-list lemmas -/

theorem alookup_isSome_iff [DecidableEq α] (m : List (α × β)) (k : α) :
    (alookup m k).isSome ↔ k ∈ m.map Prod.fst := by
  induction m with
  | nil => simp [alookup]
  | cons e rest ih =>
    obtain ⟨k', v⟩ := e
    by_cases h : k = k' <;> simp [alookup, h, ih]

theorem alookup_aupdate_self [DecidableEq α] (m : List (α × β)) (k : α) (v : β) :
    alookup (aupdate m k v) k = some v := by
  induction m with
  | nil => simp [alookup, aupdate]
  | cons e rest ih =>
    obtain ⟨k', v'⟩ := e
    by_cases h : k = k' <;> simp [alookup, aupdate, h, ih]

theorem alookup_aupdate_ne [DecidableEq α] (m : List (α × β)) (k k' : α) (v : β)
    (h : k' ≠ k) : alookup (aupdate m k v) k' = alookup m k' := by
  induction m with
  | nil => simp [alookup, aupdate, h]
  | cons e rest ih =>
    obtain ⟨k₀, v₀⟩ := e
    by_cases h1 : k = k₀
    · subst h1; simp [alookup, aupdate, h]
    · by_cases h2 : k' = k₀ <;> simp [alookup, aupdate, h1, h2, ih]

/-! ### Walk lemmas -/

theorem walkEnd_eq_iff (u : α) (p : List α) (v : α) :
    walkEnd u p = v ↔ (u :: p).getLast? = some v := by
  rw [walkEnd, List.getLast?_eq_getLast (u :: p) (List.cons_ne_nil u p)]
  simp

theorem walkEnd_cons (a x : α) (xs : List α) : walkEnd a (x :: xs) = walkEnd x xs := by
  rw [walkEnd_eq_iff, List.getLast?_cons_cons]
  exact (walkEnd_eq_iff x xs (walkEnd x xs)).mp rfl

theorem walkEnd_snoc (u : α) (p : List α) (v : α) : walkEnd u (p ++ [v]) = v := by
  rw [walkEnd_eq_iff]
  have h : u :: (p ++ [v]) = (u :: p) ++ [v] := by simp
  rw [h, List.getLast?_concat]

theorem walkEnd_append_cons (s : α) (p : List α) (b : α) (q : List α) :
    walkEnd s (p ++ b :: q) = walkEnd b q := by
  rw [walkEnd_eq_iff]
  have h : s :: (p ++ b :: q) = (s :: p) ++ (b :: q) := by simp
  rw [h, List.getLast?_append_of_ne_nil _ (List.cons_ne_nil b q)]
  exact ((walkEnd_eq_iff b q (walkEnd b q)).mp rfl)

theorem isPath_iff [DecidableEq α] (g : Graph α) (u v : α) (p : List α) :
    IsPath g u v p ↔ List.Chain (adj g) u p ∧ walkEnd u p = v := by
  rw [IsPath, walkEnd_eq_iff]

theorem isPath_nil_iff [DecidableEq α] (g : Graph α) (u v : α) :
    IsPath g u v [] ↔ u = v := by
  simp [IsPath]

theorem chain_snoc {R : α → α → Prop} (a b : α) (l : List α) :
    List.Chain R a (l ++ [b]) ↔ List.Chain R a l ∧ R (walkEnd a l) b := by
  induction l generalizing a with
  | nil => simp [walkEnd]
  | cons x xs ih =>
    rw [List.cons_append, List.chain_cons, ih, List.chain_cons, walkEnd_cons, and_assoc]

theorem isPath_snoc [DecidableEq α] (g : Graph α) (s v w : α) (p : List α) :
    IsPath g s v (p ++ [w]) ↔
      List.Chain (adj g) s p ∧ adj g (walkEnd s p) w ∧ v = w := by
  rw [isPath_iff, chain_snoc, walkEnd_snoc, and_assoc, eq_comm]

theorem isPath_walkEnd [DecidableEq α] {g : Graph α} {s v : α} {p : List α}
    (h : IsPath g s v p) : walkEnd s p = v :=
  ((isPath_iff g s v p).mp h).2

theorem isPath_append [DecidableEq α] {g : Graph α} {s u v : α} {p q : List α}
    (h1 : IsPath g s u p) (h2 : IsPath g u v q) : IsPath g s v (p ++ q) := by
  rcases (isPath_iff g s u p).mp h1 with ⟨hc1, he1⟩
  rcases (isPath_iff g u v q).mp h2 with ⟨hc2, he2⟩
  cases q with
  | nil =>
    rw [List.append_nil]
    exact (isPath_iff g s v p).mpr ⟨hc1, by rw [he1]; exact he2⟩
  | cons b q' =>
    refine (isPath_iff g s v (p ++ b :: q')).mpr ⟨?_, ?_⟩
    · refine List.chain_split.mpr ⟨?_, (List.chain_cons.mp hc2).2⟩
      exact (chain_snoc s b p).mpr ⟨hc1, by rw [he1]; exact (List.chain_cons.mp hc2).1⟩
    · rw [walkEnd_append_cons, ← walkEnd_cons u b q']
      exact he2

theorem isPath_getLast_split [DecidableEq α] {g : Graph α} {s v : α} {p : List α}
    (h : IsPath g s v p) (hne : p ≠ []) : ∃ q, p = q ++ [v] := by
  rcases h with ⟨_, he⟩
  cases p with
  | nil => exact absurd rfl hne
  | cons a l =>
    rw [List.getLast?_cons_cons] at he
    exact List.getLast?_eq_some_iff.mp he

/-! ### Shortest-distance lemmas -/

theorem dLe_mono [DecidableEq α] {g : Graph α} {s v : α} {m n : Nat}
    (h : dLe g s v m) (hmn : m ≤ n) : dLe g s v n := by
  obtain ⟨p, hp, hl⟩ := h
  exact ⟨p, hp, le_trans hl hmn⟩

theorem dEq_unique [DecidableEq α] {g : Graph α} {s v : α} {m n : Nat}
    (h1 : dEq g s v m) (h2 : dEq g s v n) : m = n :=
  le_antisymm (h1.2 n h2.1) (h2.2 m h1.1)

theorem exists_dEq [DecidableEq α] {g : Graph α} {s v : α} (h : Reach g s v) :
    ∃ n, dEq g s v n := by
  obtain ⟨p, hp⟩ := h
  obtain ⟨n, hn, hmin⟩ :=
    wellFounded_lt.has_min {n : ℕ | dLe g s v n} ⟨p.length, p, hp, le_refl _⟩
  exact ⟨n, hn, fun m hm => not_lt.mp (hmin m hm)⟩

theorem dLe_zero [DecidableEq α] {g : Graph α} {s v : α} (h : dLe g s v 0) : v = s := by
  obtain ⟨p, hp, hl⟩ := h
  have hp0 : p = [] := List.length_eq_zero.mp (Nat.le_zero.mp hl)
  subst hp0
  exact ((isPath_nil_iff g s v).mp hp).symm

theorem dEq_source [DecidableEq α] (g : Graph α) (s : α) : dEq g s s 0 :=
  ⟨⟨[], (isPath_nil_iff g s s).mpr rfl, le_refl 0⟩, fun m _ => Nat.zero_le m⟩

theorem dEq_exact_path [DecidableEq α] {g : Graph α} {s v : α} {n : Nat}
    (h : dEq g s v n) : ∃ p, IsPath g s v p ∧ p.length = n := by
  obtain ⟨⟨p, hp, hl⟩, hmin⟩ := h
  exact ⟨p, hp, le_antisymm hl (hmin p.length ⟨p, hp, le_refl _⟩)⟩

theorem dLe_succ_of_adj [DecidableEq α] {g : Graph α} {s u v : α} {n : Nat}
    (h : dLe g s u n) (ha : adj g u v) : dLe g s v (n + 1) := by
  obtain ⟨p, hp, hl⟩ := h
  refine ⟨p ++ [v], ?_, by simpa using Nat.succ_le_succ hl⟩
  rcases (isPath_iff g s u p).mp hp with ⟨hc, he⟩
  exact (isPath_snoc g s v v p).mpr ⟨hc, by rw [he]; exact ha, rfl⟩

theorem dEq_decompose [DecidableEq α] {g : Graph α} {s v : α} {m : Nat}
    (h : dEq g s v (m + 1)) : ∃ u, adj g u v ∧ dEq g s u m := by
  obtain ⟨p, hp, hl⟩ := dEq_exact_path h
  have hpne : p ≠ [] := by
    intro e; subst e; simp at hl
  obtain ⟨q, rfl⟩ := isPath_getLast_split hp hpne
  rcases (isPath_snoc g s v v q).mp hp with ⟨hc, ha, -⟩
  have hq : IsPath g s (walkEnd s q) q := (isPath_iff g s (walkEnd s q) q).mpr ⟨hc, rfl⟩
  have hql : q.length = m := by simpa using hl
  refine ⟨walkEnd s q, ha, ⟨q, hq, le_of_eq hql⟩, fun m' hm' => ?_⟩
  have := h.2 (m' + 1) (dLe_succ_of_adj hm' ha)
  omega

/-! ### Minimal walks are duplicate-free and stay inside the keys -/

theorem not_nodup_split {l : List α} (h : ¬l.Nodup) :
    ∃ (x : α) (l₁ l₂ l₃ : List α), l = l₁ ++ x :: l₂ ++ x :: l₃ := by
  induction l with
  | nil => simp at h
  | cons a l ih =>
    by_cases ha : a ∈ l
    · obtain ⟨l₂, l₃, rfl⟩ := List.append_of_mem ha
      exact ⟨a, [], l₂, l₃, rfl⟩
    · have hl : ¬l.Nodup := fun hn => h (List.nodup_cons.mpr ⟨ha, hn⟩)
      obtain ⟨x, l₁, l₂, l₃, rfl⟩ := ih hl
      exact ⟨x, a :: l₁, l₂, l₃, rfl⟩

theorem minWalk_nodup [DecidableEq α] {g : Graph α} {s t : α} {p : List α}
    (hp : IsPath g s t p) (hmin : ∀ q, IsPath g s t q → p.length ≤ q.length) :
    (s :: p).Nodup := by
  by_contra hnd
  obtain ⟨x, l₁, l₂, l₃, hsplit⟩ := not_nodup_split hnd
  rcases (isPath_iff g s t p).mp hp with ⟨hc, he⟩
  cases l₁ with
  | nil =>
    rw [List.nil_append] at hsplit
    injection hsplit with h1 h2
    subst h1
    subst h2
    simp only [List.append_eq] at hc he
    rw [List.chain_split] at hc
    rw [walkEnd_append_cons] at he
    have hsuf : IsPath g s t l₃ := (isPath_iff g s t l₃).mpr ⟨hc.2, he⟩
    have hlen := hmin l₃ hsuf
    simp [List.append_eq, List.length_append] at hlen
    omega
  | cons a l₁' =>
    injection hsplit with h1 h2
    subst h1
    subst h2
    simp only [List.append_eq] at hc he
    rw [List.chain_split] at hc
    have hc1 : List.Chain (adj g) s (l₁' ++ x :: (l₂ ++ [x])) := by
      have := hc.1
      rwa [List.append_assoc, List.cons_append] at this
    rw [List.chain_split] at hc1
    rw [walkEnd_append_cons] at he
    have hshort : IsPath g s t (l₁' ++ x :: l₃) := by
      refine (isPath_iff g s t _).mpr ⟨List.chain_split.mpr ⟨hc1.1, hc.2⟩, ?_⟩
      rw [walkEnd_append_cons]
      exact he
    have hlen := hmin _ hshort
    simp [List.append_eq, List.length_append] at hlen
    omega

theorem chain_mem_keys [DecidableEq α] {g : Graph α} {s : α} {p : List α}
    (hcl : ∀ u ∈ keys g, ∀ w ∈ nbrs g u, w ∈ keys g) (hs : s ∈ keys g)
    (hp : List.Chain (adj g) s p) : ∀ x ∈ p, x ∈ keys g := by
  induction p generalizing s with
  | nil => simp
  | cons b q ih =>
    rcases List.chain_cons.mp hp with ⟨hab, hq⟩
    have hb : b ∈ keys g := hcl s hs b hab
    intro x hx
    rcases List.mem_cons.mp hx with rfl | hx
    · exact hb
    · exact ih hb hq x hx

theorem nodup_length_le [DecidableEq α] {l keysl : List α} (hnd : l.Nodup)
    (hsub : ∀ x ∈ l, x ∈ keysl) : l.length ≤ keysl.length := by
  have h1 : l.toFinset ⊆ keysl.toFinset := by
    intro x hx
    exact List.mem_toFinset.mpr (hsub x (List.mem_toFinset.mp hx))
  calc l.length = l.toFinset.card := (List.toFinset_card_of_nodup hnd).symm
    _ ≤ keysl.toFinset.card := Finset.card_le_card h1
    _ ≤ keysl.length := List.toFinset_card_le keysl

theorem keys_length (g : Graph α) : (keys g).length = g.length := by
  simp [keys]

theorem dEq_lt_length [DecidableEq α] {g : Graph α} {s t : α} {d : Nat}
    (hcl : ∀ u ∈ keys g, ∀ w ∈ nbrs g u, w ∈ keys g) (hs : s ∈ keys g)
    (h : dEq g s t d) : d < g.length := by
  obtain ⟨p, hp, hl⟩ := dEq_exact_path h
  have hmin : ∀ q, IsPath g s t q → p.length ≤ q.length := by
    intro q hq
    rw [hl]
    exact h.2 q.length ⟨q, hq, le_refl _⟩
  have hnd := minWalk_nodup hp hmin
  have hmem : ∀ x ∈ s :: p, x ∈ keys g := by
    intro x hx
    rcases List.mem_cons.mp hx with rfl | hx
    · exact hs
    · exact chain_mem_keys hcl hs ((isPath_iff g s t p).mp hp).1 x hx
  have := nodup_length_le hnd hmem
  rw [keys_length] at this
  simp at this
  omega

/-! ### Parent-chain lemmas -/

theorem chains_nil_src [DecidableEq α] {pm : List (α × Option (List α))} {s v : α}
    (h : Chains pm s v []) : v = s := by
  cases h
  rfl

theorem chains_src_nil [DecidableEq α] {pm : List (α × Option (List α))} {s : α}
    {l : List α} (hsrc : alookup pm s = some none) (h : Chains pm s s l) : l = [] := by
  cases h with
  | nil => rfl
  | cons hl hmem hch => rw [hsrc] at hl; exact absurd hl (by simp)

/-! ### Characterization of the reconstruction (`get_paths_aux`) -/

theorem runParents_char [DecidableEq α] {pm : List (α × Option (List α))} {s : α}
    (hg : PmGood pm s) (minimum L : Nat)
    (f : List α → α → Option (List (List α) × List α))
    (hf : ∀ cur u, cur.length = L → (alookup pm u).isSome →
      (∀ l, Chains pm s u l → minimum ≤ cur.length + l.length) →
      ∃ r p', f cur u = some (r, p') ∧ p'.length = cur.length ∧
        (p' = cur ∨ (u = s ∧ p' = cur.reverse ∧ r = [cur.reverse])) ∧
        (r = [] → p' = cur) ∧
        (∀ q, q ∈ r ↔ ∃ l, Chains pm s u l ∧ cur.length + l.length ≤ minimum ∧
          q = (cur ++ l).reverse) ∧ r.Nodup) :
    ∀ (ps cur : List α), cur.length = L →
      (∀ u ∈ ps, (alookup pm u).isSome) →
      (∀ u ∈ ps, ∀ l, Chains pm s u l → minimum ≤ cur.length + l.length) →
      ps.Nodup →
      ∃ r cur', runParents f cur ps = some (r, cur') ∧ cur'.length = cur.length ∧
        (r = [] → cur' = cur) ∧
        (∀ q, q ∈ r ↔ ∃ u l, u ∈ ps ∧ Chains pm s u l ∧
          cur.length + l.length ≤ minimum ∧ q = (cur ++ l).reverse) ∧
        r.Nodup := by
  intro ps
  induction ps with
  | nil =>
    intro cur _ _ _ _
    refine ⟨[], cur, rfl, rfl, fun _ => rfl, ?_, List.nodup_nil⟩
    intro q
    simp [runParents]
  | cons u us ih =>
    intro cur hL hdom hmin hnd
    obtain ⟨r₁, p₁, hfeq, hp₁len, hp₁cases, hp₁nil, hchar₁, hnd₁⟩ :=
      hf cur u hL (hdom u (by simp)) (fun l hl => hmin u (by simp) l hl)
    rcases hp₁cases with rfl | ⟨hu, hp₁, hr₁⟩
    · -- the passed list object came back unchanged
      obtain ⟨r₂, cur₂, hreq, hl₂, hnil₂, hchar₂, hnd₂⟩ :=
        ih p₁ hL (fun v hv => hdom v (by simp [hv]))
          (fun v hv l hl => hmin v (by simp [hv]) l hl) (List.nodup_cons.mp hnd).2
      refine ⟨r₁ ++ r₂, cur₂, ?_, hl₂, ?_, ?_, ?_⟩
      · simp [runParents, hfeq, hreq]
      · intro h
        rcases List.append_eq_nil.mp h with ⟨-, h₂⟩
        exact hnil₂ h₂
      · intro q
        simp only [List.mem_append, hchar₁, hchar₂]
        constructor
        · rintro (⟨l, hch, hle, rfl⟩ | ⟨u', l, hu', hch, hle, rfl⟩)
          · exact ⟨u, l, by simp, hch, hle, rfl⟩
          · exact ⟨u', l, by simp [hu'], hch, hle, rfl⟩
        · rintro ⟨u', l, hu', hch, hle, rfl⟩
          rcases List.mem_cons.mp hu' with rfl | hu'
          · exact Or.inl ⟨l, hch, hle, rfl⟩
          · exact Or.inr ⟨u', l, hu', hch, hle, rfl⟩
      · refine List.Nodup.append hnd₁ hnd₂ ?_
        intro q hq₁ hq₂
        obtain ⟨l, hch, hle, heq⟩ := (hchar₁ q).mp hq₁
        obtain ⟨u', l', hu', hch', hle', heq'⟩ := (hchar₂ q).mp hq₂
        have hll : l = l' := by
          have h0 : (p₁ ++ l).reverse = (p₁ ++ l').reverse := heq.symm.trans heq'
          exact List.append_cancel_left (List.reverse_injective h0)
        subst hll
        cases hch with
        | nil =>
          have hu's : u' = s := chains_nil_src hch'
          rw [hu's] at hu'
          exact (List.nodup_cons.mp hnd).1 hu'
        | cons hl0 hmem0 hch0 =>
          cases hch' with
          | cons hl1 hmem1 hch1 =>
            exact (List.nodup_cons.mp hnd).1 hu'
    · -- the child was the source sentinel: the list object was reversed in place
      subst hu
      subst hp₁
      have hcurmin : minimum = cur.length := by
        have h1 : cur.reverse ∈ r₁ := by simp [hr₁]
        obtain ⟨l, hch, hle, heq⟩ := (hchar₁ _).mp h1
        have hl0 : l = [] := chains_src_nil hg.src hch
        subst hl0
        simp at hle heq
        have h2 := hmin u (by simp) [] Chains.nil
        simp at h2
        omega
      obtain ⟨r₂, cur₂, hreq, hl₂, hnil₂, hchar₂, hnd₂⟩ :=
        ih cur.reverse (by simpa using hL) (fun v hv => hdom v (by simp [hv]))
          (fun v hv l hl => by
            simpa using hmin v (by simp [hv]) l hl) (List.nodup_cons.mp hnd).2
      have hr₂nil : r₂ = [] := by
        rw [List.eq_nil_iff_forall_not_mem]
        intro q hq
        obtain ⟨u', l, hu', hch, hle, -⟩ := (hchar₂ q).mp hq
        have hl0 : l = [] := by
          rw [List.length_reverse] at hle
          have : l.length = 0 := by omega
          exact List.length_eq_zero.mp this
        subst hl0
        have hu's := chains_nil_src hch
        rw [hu's] at hu'
        exact (List.nodup_cons.mp hnd).1 hu'
      subst hr₂nil
      have hcur₂ : cur₂ = cur.reverse := hnil₂ rfl
      subst hcur₂
      refine ⟨r₁ ++ [], cur.reverse, ?_, by simp, ?_, ?_, ?_⟩
      · simp [runParents, hfeq, hreq]
      · intro h
        rw [hr₁] at h
        simp at h
      · intro q
        rw [List.append_nil, hr₁]
        constructor
        · intro hq
          simp at hq
          exact ⟨u, [], by simp, Chains.nil, by simp [hcurmin], by simp [hq]⟩
        · rintro ⟨u', l, hu', hch, hle, rfl⟩
          rcases List.mem_cons.mp hu' with rfl | hu'
          · have hl0 : l = [] := chains_src_nil hg.src hch
            subst hl0
            simp
          · have hl0 : l = [] := by
              have : l.length = 0 := by omega
              exact List.length_eq_zero.mp this
            subst hl0
            have hu's := chains_nil_src hch
            rw [hu's] at hu'
            exact absurd hu' (List.nodup_cons.mp hnd).1
      · rw [hr₁]
        simp

theorem get_paths_aux_char [DecidableEq α] {pm : List (α × Option (List α))} {s : α}
    (hg : PmGood pm s) :
    ∀ (fuel minimum : Nat) (path : List α) (node : α),
      (alookup pm node).isSome →
      (∀ l, Chains pm s node l → minimum ≤ path.length + l.length) →
      minimum + 2 ≤ fuel + path.length → 1 ≤ fuel →
      ∃ r p', get_paths_aux s pm minimum fuel path node = some (r, p') ∧
        p'.length = path.length ∧
        (p' = path ∨ (node = s ∧ p' = path.reverse ∧ r = [path.reverse])) ∧
        (r = [] → p' = path) ∧
        (∀ q, q ∈ r ↔ ∃ l, Chains pm s node l ∧ path.length + l.length ≤ minimum ∧
          q = (path ++ l).reverse) ∧
        r.Nodup := by
  intro fuel
  induction fuel with
  | zero =>
    intro minimum path node _ _ _ h1
    omega
  | succ fuel ih =>
    intro minimum path node hdom hmin hfuel _
    by_cases hprune : minimum < path.length
    · refine ⟨[], path, ?_, rfl, Or.inl rfl, fun _ => rfl, ?_, List.nodup_nil⟩
      · simp [get_paths_aux, hprune]
      · intro q
        constructor
        · intro h
          simp at h
        · rintro ⟨l, hch, hle, rfl⟩
          omega
    · cases hlook : alookup pm node with
      | none => rw [hlook] at hdom; simp at hdom
      | some val =>
        cases val with
        | none =>
          have hnode : node = s := hg.none_src node hlook
          refine ⟨[path.reverse], path.reverse, ?_, by simp,
            Or.inr ⟨hnode, rfl, rfl⟩, ?_, ?_, by simp⟩
          · simp [get_paths_aux, hprune, hlook]
          · intro h
            simp at h
          · intro q
            subst hnode
            constructor
            · intro hq
              simp at hq
              exact ⟨[], Chains.nil, by simpa using Nat.le_of_not_lt hprune,
                by simp [hq]⟩
            · rintro ⟨l, hch, hle, rfl⟩
              have hl0 : l = [] := chains_src_nil hg.src hch
              subst hl0
              simp
        | some parents =>
          have hnode_ne : node ≠ s := by
            intro h
            rw [h, hg.src] at hlook
            simp at hlook
          obtain ⟨hndps, hdomps⟩ := hg.good node parents hlook
          have hplen : path.length ≤ minimum := Nat.le_of_not_lt hprune
          have hfuel1 : 1 ≤ fuel := by omega
          obtain ⟨r, cur', hreq, -, -, hchar, hndr⟩ :=
            runParents_char hg minimum (path.length + 1)
              (get_paths_aux s pm minimum fuel)
              (fun cur u hLc hdu hmu =>
                ih minimum cur u hdu hmu (by omega) hfuel1)
              parents (path ++ [node]) (by simp)
              hdomps
              (fun u hu l hl => by
                have hch : Chains pm s node (node :: l) := Chains.cons hlook hu hl
                have := hmin (node :: l) hch
                simp at this ⊢
                omega)
              hndps
          refine ⟨r, path, ?_, rfl, Or.inl rfl, fun _ => rfl, ?_, hndr⟩
          · simp [get_paths_aux, hprune, hlook, hreq]
          · intro q
            rw [hchar q]
            constructor
            · rintro ⟨u, l, hu, hch, hle, rfl⟩
              refine ⟨node :: l, Chains.cons hlook hu hch, ?_, by simp⟩
              simp at hle ⊢
              omega
            · rintro ⟨l, hch, hle, rfl⟩
              cases hch with
              | nil => exact absurd rfl hnode_ne
              | cons hl0 hmem0 hch0 =>
                rw [hlook] at hl0
                injection hl0 with hl0'
                injection hl0' with hl0''
                subst hl0''
                refine ⟨_, _, hmem0, hch0, ?_, by simp⟩
                simp at hle ⊢
                omega

theorem get_paths_char [LinearOrder α] {pm : List (α × Option (List α))} {s t : α}
    (hg : PmGood pm s) (minimum fuel : Nat) (hdom : (alookup pm t).isSome)
    (hmin : ∀ l, Chains pm s t l → minimum ≤ l.length)
    (hfuel : minimum + 2 ≤ fuel) :
    ∃ r, get_paths s t pm minimum fuel = some r ∧
      (∀ q, q ∈ r ↔ ∃ l, Chains pm s t l ∧ l.length ≤ minimum ∧ q = l.reverse) ∧
      r.Nodup ∧ List.Sorted (· ≤ ·) r := by
  obtain ⟨r, p', heq, -, -, -, hchar, hndr⟩ :=
    get_paths_aux_char hg fuel minimum [] t hdom
      (fun l hl => by simpa using hmin l hl) (by simpa using hfuel) (by omega)
  refine ⟨List.insertionSort (· ≤ ·) r, ?_, ?_, ?_, ?_⟩
  · simp [get_paths, heq]
  · intro q
    rw [List.Perm.mem_iff (List.perm_insertionSort _ r), hchar q]
    simp
  · exact (List.perm_insertionSort _ r).nodup_iff.mpr hndr
  · exact List.sorted_insertionSort _ r

/-! ### The BFS loop invariant: initialization and dequeue normalization -/

theorem mem_keys_isSome [DecidableEq α] {g : Graph α} {v : α} (h : v ∈ keys g) :
    (alookup g v).isSome :=
  (alookup_isSome_iff g v).mpr h

theorem bfsInv_init [DecidableEq α] (g : Graph α) (s t : α) (hs : s ∈ keys g) :
    BfsInvAt g s t s ⟨[], [s], [(s, none)]⟩ 0 [s] [] where
  queue_eq := by simp
  layerA := by
    intro x hx
    rcases List.mem_singleton.mp hx with rfl
    exact dEq_source g x
  layerB := by simp
  queue_nodup := by simp
  queue_vis := by simp
  vis_le := by simp
  lt_vis := by
    intro v n _ h
    omega
  closure := by simp
  pm_src := by simp [alookup]
  pm_none := by
    intro v h
    by_cases hv : v = s
    · exact hv
    · simp [alookup, hv] at h
  pm_dom := by
    intro v
    by_cases hv : v = s <;> simp [alookup, hv]
  pm_par := by
    intro v ps h
    by_cases hv : v = s <;> simp [alookup, hv] at h
  pm_rec := by
    intro u v k h
    simp at h
  vis_keys := by simp
  queue_keys := by
    intro v hv
    rcases List.mem_singleton.mp hv with rfl
    exact hs
  vis_nodup := by simp
  target_not := Or.inl (by simp)
  base_or := Or.inl ⟨rfl, rfl, rfl, rfl, rfl⟩

theorem bfsInv_pop [DecidableEq α] {g : Graph α} {s t cur c : α} {st : BfsState α}
    {a : Nat} {A B Q' : List α} (h : BfsInvAt g s t cur st a A B)
    (hq : st.queue = c :: Q') :
    ∃ a2 A2 B2, BfsInvAt g s t cur st a2 (c :: A2) B2 ∧ Q' = A2 ++ B2 ∧
      dEq g s c a2 := by
  cases A with
  | cons c' A'' =>
    have he := h.queue_eq
    rw [hq, List.cons_append] at he
    injection he with he1 he2
    subst he1
    exact ⟨a, A'', B, h, he2, h.layerA c (by simp)⟩
  | nil =>
    have hB : st.queue = B := by
      have := h.queue_eq
      rwa [List.nil_append] at this
    have hcB : c ∈ B := by
      rw [← hB, hq]
      simp
    have hca : dEq g s c (a + 1) := h.layerB c hcB
    have hnotbase : s ∈ st.visited ∧ cur ∈ st.visited := by
      rcases h.base_or with ⟨hv, hq2, hp, hc, ha⟩ | hr
      · exfalso
        have hsB : s ∈ B := by
          rw [← hB, hq2]
          simp
        have h1 : dEq g s s (a + 1) := h.layerB s hsB
        have h2 := dEq_unique h1 (dEq_source g s)
        omega
      · exact hr
    have hQ' : B = c :: Q' := by rw [← hB, hq]
    refine ⟨a + 1, Q', [], ?_, by simp, hca⟩
    refine
      { queue_eq := by rw [hq]; simp
        layerA := ?_
        layerB := by simp
        queue_nodup := h.queue_nodup
        queue_vis := h.queue_vis
        vis_le := ?_
        lt_vis := ?_
        closure := h.closure
        pm_src := h.pm_src
        pm_none := h.pm_none
        pm_dom := h.pm_dom
        pm_par := h.pm_par
        pm_rec := h.pm_rec
        vis_keys := h.vis_keys
        queue_keys := h.queue_keys
        vis_nodup := h.vis_nodup
        target_not := h.target_not
        base_or := Or.inr hnotbase }
    · intro x hx
      exact h.layerB x (by rw [hQ']; exact hx)
    · intro v hv
      obtain ⟨n, hn, hd⟩ := h.vis_le v hv
      exact ⟨n, by omega, hd⟩
    · intro v n hd hlt
      rcases Nat.lt_succ_iff_lt_or_eq.mp hlt with h1 | rfl
      · exact h.lt_vis v n hd h1
      · cases n with
        | zero =>
          have : v = s := dLe_zero hd.1
          rw [this]
          exact hnotbase.1
        | succ a' =>
          obtain ⟨u, hadj, hdu⟩ := dEq_decompose hd
          have hu : u ∈ st.visited := h.lt_vis u a' hdu (by omega)
          rcases h.closure u hu v hadj with hv | hv | hv
          · exact hv
          · exfalso
            have := h.layerB v (by rw [← hB]; exact hv)
            have := dEq_unique this hd
            omega
          · exfalso
            rw [hv] at hd
            have := dEq_unique hd (dEq_source g s)
            omega

theorem aupdate_isSome_mono [DecidableEq α] (m : List (α × β)) (k v : α) (w : β)
    (h : (alookup m v).isSome) : (alookup (aupdate m k w) v).isSome := by
  by_cases hv : v = k
  · subst hv
    rw [alookup_aupdate_self]
    rfl
  · rwa [alookup_aupdate_ne m k v w hv]

theorem head?_append_left {l m : List α} (h : l ≠ []) : (l ++ m).head? = l.head? := by
  cases l with
  | nil => exact absurd rfl h
  | cons x xs => simp

/-- One full pass of the neighbor loop of `bfs` preserves the mid-iteration invariant
facts about the queue and the parent map, records `current` as a parent of every
pending unvisited neighbor, and extends every existing parent list only at its end. -/
theorem processNbrs_spec [DecidableEq α] {g : Graph α} (s c : α) (V : List α) (a : Nat)
    (hsvis : s ∈ c :: V) (hdc : dEq g s c a) :
    ∀ (ns q pm : List _),
      (∀ n ∈ ns, n ∈ nbrs g c) →
      (∀ n ∈ ns, n ∉ c :: V) →
      ns.Nodup →
      q.Nodup →
      (∀ x ∈ q, x ∉ c :: V) →
      (∃ A B, q = A ++ B ∧ (∀ x ∈ A, dEq g s x a) ∧ (∀ x ∈ B, dEq g s x (a + 1))) →
      alookup pm s = some none →
      (∀ v, alookup pm v = some none → v = s) →
      (∀ v, (alookup pm v).isSome ↔ (v ∈ c :: V ∨ v ∈ q ∨ v = s)) →
      (∀ v ps, alookup pm v = some (some ps) → ps ≠ [] ∧ ps.Nodup ∧
        (∀ u ∈ ps, adj g u v ∧ u ∈ c :: V) ∧
        ∃ k h, dEq g s v k ∧ ps.head? = some h ∧ dEq g s h (k - 1) ∧ 1 ≤ k) →
      (∀ n ∈ ns, ∀ ps, alookup pm n = some (some ps) → c ∉ ps) →
      (∀ v n, dEq g s v n → n ≤ a → (alookup pm v).isSome) →
      ∃ q' pm', processNbrs c ns q pm = some (q', pm') ∧
        (∀ x, x ∈ q' ↔ x ∈ q ∨ x ∈ ns) ∧
        q'.Nodup ∧
        (∀ x ∈ q', x ∉ c :: V) ∧
        (∃ A B, q' = A ++ B ∧ (∀ x ∈ A, dEq g s x a) ∧ (∀ x ∈ B, dEq g s x (a + 1))) ∧
        alookup pm' s = some none ∧
        (∀ v, alookup pm' v = some none → v = s) ∧
        (∀ v, (alookup pm' v).isSome ↔ (v ∈ c :: V ∨ v ∈ q' ∨ v = s)) ∧
        (∀ v ps, alookup pm' v = some (some ps) → ps ≠ [] ∧ ps.Nodup ∧
          (∀ u ∈ ps, adj g u v ∧ u ∈ c :: V) ∧
          ∃ k h, dEq g s v k ∧ ps.head? = some h ∧ dEq g s h (k - 1) ∧ 1 ≤ k) ∧
        (∀ v ps, alookup pm v = some (some ps) →
          ∃ e, alookup pm' v = some (some (ps ++ e))) ∧
        (∀ n ∈ ns, ∃ ps, alookup pm' n = some (some ps) ∧ c ∈ ps) := by
  intro ns
  induction ns with
  | nil =>
    intro q pm _ _ _ hqnd hqv hql hs1 hs2 hdom hpar _ _
    refine ⟨q, pm, rfl, ?_, hqnd, hqv, hql, hs1, hs2, hdom, hpar, ?_, ?_⟩
    · intro x
      simp
    · intro v ps h
      exact ⟨[], by simpa using h⟩
    · intro n hn
      simp at hn
  | cons n ns' ih =>
    intro q pm hmem hunv hnd hqnd hqv hql hs1 hs2 hdom hpar hnoc hdd
    have hn_mem : n ∈ nbrs g c := hmem n (by simp)
    have hn_unv : n ∉ c :: V := hunv n (by simp)
    have hn_adj : adj g c n := hn_mem
    have hns : n ≠ s := fun h => hn_unv (h ▸ hsvis)
    cases hlook : alookup pm n with
    | some val =>
      cases val with
      | none => exact absurd (hs2 n hlook) hns
      | some ps =>
        -- already-discovered neighbor: no enqueue, parent list gets `c` appended
        have hnq : n ∈ q := by
          have h1 : (alookup pm n).isSome := by rw [hlook]; rfl
          rcases (hdom n).mp h1 with h2 | h2 | h2
          · exact absurd h2 hn_unv
          · exact h2
          · exact absurd h2 hns
        obtain ⟨hne, hndps, hmemps, k, hh, hk, hheads, hhd, hk1⟩ := hpar n ps hlook
        have hcnotps : c ∉ ps := hnoc n (by simp) ps hlook
        have hstep : processNbrs c (n :: ns') q pm =
            processNbrs c ns' q (aupdate pm n (some (ps ++ [c]))) := by
          simp [processNbrs, hnq, hlook]
        rw [hstep]
        have harg1 : alookup (aupdate pm n (some (ps ++ [c]))) s = some none := by
          rw [alookup_aupdate_ne pm n s _ (Ne.symm hns)]
          exact hs1
        have harg2 : ∀ v, alookup (aupdate pm n (some (ps ++ [c]))) v = some none →
            v = s := by
          intro v hv
          by_cases hvn : v = n
          · subst hvn
            rw [alookup_aupdate_self] at hv
            simp at hv
          · rw [alookup_aupdate_ne pm n v _ hvn] at hv
            exact hs2 v hv
        have harg3 : ∀ v, (alookup (aupdate pm n (some (ps ++ [c]))) v).isSome ↔
            (v ∈ c :: V ∨ v ∈ q ∨ v = s) := by
          intro v
          by_cases hvn : v = n
          · subst hvn
            rw [alookup_aupdate_self]
            simp [hnq]
          · rw [alookup_aupdate_ne pm n v _ hvn]
            exact hdom v
        have harg4 : ∀ v ps', alookup (aupdate pm n (some (ps ++ [c]))) v =
            some (some ps') → ps' ≠ [] ∧ ps'.Nodup ∧
            (∀ u ∈ ps', adj g u v ∧ u ∈ c :: V) ∧
            ∃ k h, dEq g s v k ∧ ps'.head? = some h ∧ dEq g s h (k - 1) ∧ 1 ≤ k := by
          intro v ps' hv
          by_cases hvn : v = n
          · subst hvn
            rw [alookup_aupdate_self] at hv
            injection hv with hv'
            injection hv' with hv''
            subst hv''
            refine ⟨by simp, ?_, ?_, k, hh, hk, ?_, hhd, hk1⟩
            · simp [List.nodup_append, hndps, hcnotps]
            · intro u hu
              rcases List.mem_append.mp hu with hu | hu
              · exact ⟨(hmemps u hu).1, by simp [(hmemps u hu).2]⟩
              · rcases List.mem_singleton.mp hu with rfl
                exact ⟨hn_adj, by simp⟩
            · rw [head?_append_left hne]
              exact hheads
          · rw [alookup_aupdate_ne pm n v _ hvn] at hv
            exact hpar v ps' hv
        have harg5 : ∀ m ∈ ns', ∀ ps', alookup (aupdate pm n (some (ps ++ [c]))) m =
            some (some ps') → c ∉ ps' := by
          intro m hm ps' hmv
          have hmn : m ≠ n := by
            intro h
            subst h
            exact (List.nodup_cons.mp hnd).1 hm
          rw [alookup_aupdate_ne pm n m _ hmn] at hmv
          exact hnoc m (by simp [hm]) ps' hmv
        have harg6 : ∀ v m, dEq g s v m → m ≤ a →
            (alookup (aupdate pm n (some (ps ++ [c]))) v).isSome := by
          intro v m hv hm
          exact aupdate_isSome_mono pm n v _ (hdd v m hv hm)
        obtain ⟨q', pm', heq, hmemq, hnd', hqv', hql', hs1', hs2', hdom', hpar',
            hpre', hcov'⟩ :=
          ih q (aupdate pm n (some (ps ++ [c])))
            (fun m hm => hmem m (by simp [hm]))
            (fun m hm => hunv m (by simp [hm]))
            (List.nodup_cons.mp hnd).2 hqnd hqv hql harg1 harg2 harg3 harg4 harg5 harg6
        refine ⟨q', pm', heq, ?_, hnd', hqv', hql', hs1', hs2', hdom', hpar', ?_, ?_⟩
        · intro x
          rw [hmemq x]
          constructor
          · rintro (h | h)
            · exact Or.inl h
            · exact Or.inr (by simp [h])
          · rintro (h | h)
            · exact Or.inl h
            · rcases List.mem_cons.mp h with rfl | h
              · exact Or.inl hnq
              · exact Or.inr h
        · intro v ps' hv
          by_cases hvn : v = n
          · subst hvn
            obtain ⟨e, he⟩ := hpre' _ _ (alookup_aupdate_self pm v (some (ps ++ [c])))
            rw [hlook] at hv
            injection hv with hv'
            injection hv' with hv''
            subst hv''
            exact ⟨c :: e, by rw [he]; simp⟩
          · obtain ⟨e, he⟩ := hpre' v ps' (by
              rwa [alookup_aupdate_ne pm n v _ hvn])
            exact ⟨e, he⟩
        · intro m hm
          rcases List.mem_cons.mp hm with rfl | hm
          · obtain ⟨e, he⟩ := hpre' _ _ (alookup_aupdate_self pm m (some (ps ++ [c])))
            exact ⟨ps ++ [c] ++ e, by rw [he], by simp⟩
          · exact hcov' m hm
    | none =>
      -- newly discovered neighbor: enqueue it and create its parent entry
      have hnq : n ∉ q := by
        intro h
        have h1 : (alookup pm n).isSome := (hdom n).mpr (Or.inr (Or.inl h))
        rw [hlook] at h1
        simp at h1
      have hdn : dEq g s n (a + 1) := by
        obtain ⟨p, hp, hpl⟩ := (dLe_succ_of_adj hdc.1 hn_adj : dLe g s n (a + 1))
        obtain ⟨m, hm⟩ := exists_dEq ⟨p, hp⟩
        have hle : m ≤ a + 1 := hm.2 (a + 1) ⟨p, hp, hpl⟩
        have hgt : ¬m ≤ a := by
          intro h
          have h1 := hdd n m hm h
          rw [hlook] at h1
          simp at h1
        have hma : m = a + 1 := by omega
        rwa [hma] at hm
      have hstep : processNbrs c (n :: ns') q pm =
          processNbrs c ns' (q ++ [n]) (aupdate pm n (some [c])) := by
        simp [processNbrs, hnq, hlook]
      rw [hstep]
      have harg0 : (q ++ [n]).Nodup := by
        simp [List.nodup_append, hqnd, hnq]
      have harg0b : ∀ x ∈ q ++ [n], x ∉ c :: V := by
        intro x hx
        rcases List.mem_append.mp hx with hx | hx
        · exact hqv x hx
        · rcases List.mem_singleton.mp hx with rfl
          exact hn_unv
      have harg0c : ∃ A B, q ++ [n] = A ++ B ∧ (∀ x ∈ A, dEq g s x a) ∧
          (∀ x ∈ B, dEq g s x (a + 1)) := by
        obtain ⟨A, B, rfl, hA, hB⟩ := hql
        refine ⟨A, B ++ [n], by simp, hA, ?_⟩
        intro x hx
        rcases List.mem_append.mp hx with hx | hx
        · exact hB x hx
        · rcases List.mem_singleton.mp hx with rfl
          exact hdn
      have harg1 : alookup (aupdate pm n (some [c])) s = some none := by
        rw [alookup_aupdate_ne pm n s _ (Ne.symm hns)]
        exact hs1
      have harg2 : ∀ v, alookup (aupdate pm n (some [c])) v = some none → v = s := by
        intro v hv
        by_cases hvn : v = n
        · subst hvn
          rw [alookup_aupdate_self] at hv
          simp at hv
        · rw [alookup_aupdate_ne pm n v _ hvn] at hv
          exact hs2 v hv
      have harg3 : ∀ v, (alookup (aupdate pm n (some [c])) v).isSome ↔
          (v ∈ c :: V ∨ v ∈ q ++ [n] ∨ v = s) := by
        intro v
        by_cases hvn : v = n
        · subst hvn
          rw [alookup_aupdate_self]
          simp
        · rw [alookup_aupdate_ne pm n v _ hvn, hdom v]
          constructor
          · rintro (h | h | h)
            · exact Or.inl h
            · exact Or.inr (Or.inl (by simp [h]))
            · exact Or.inr (Or.inr h)
          · rintro (h | h | h)
            · exact Or.inl h
            · rcases List.mem_append.mp h with h | h
              · exact Or.inr (Or.inl h)
              · rcases List.mem_singleton.mp h with rfl
                exact absurd rfl hvn
            · exact Or.inr (Or.inr h)
      have harg4 : ∀ v ps', alookup (aupdate pm n (some [c])) v = some (some ps') →
          ps' ≠ [] ∧ ps'.Nodup ∧ (∀ u ∈ ps', adj g u v ∧ u ∈ c :: V) ∧
          ∃ k h, dEq g s v k ∧ ps'.head? = some h ∧ dEq g s h (k - 1) ∧ 1 ≤ k := by
        intro v ps' hv
        by_cases hvn : v = n
        · subst hvn
          rw [alookup_aupdate_self] at hv
          injection hv with hv'
          injection hv' with hv''
          subst hv''
          refine ⟨by simp, by simp, ?_, a + 1, c, hdn, by simp, by simpa using hdc,
            by omega⟩
          intro u hu
          rcases List.mem_singleton.mp hu with rfl
          exact ⟨hn_adj, by simp⟩
        · rw [alookup_aupdate_ne pm n v _ hvn] at hv
          exact hpar v ps' hv
      have harg5 : ∀ m ∈ ns', ∀ ps', alookup (aupdate pm n (some [c])) m =
          some (some ps') → c ∉ ps' := by
        intro m hm ps' hmv
        have hmn : m ≠ n := by
          intro h
          subst h
          exact (List.nodup_cons.mp hnd).1 hm
        rw [alookup_aupdate_ne pm n m _ hmn] at hmv
        exact hnoc m (by simp [hm]) ps' hmv
      have harg6 : ∀ v m, dEq g s v m → m ≤ a →
          (alookup (aupdate pm n (some [c])) v).isSome := by
        intro v m hv hm
        exact aupdate_isSome_mono pm n v _ (hdd v m hv hm)
      obtain ⟨q', pm', heq, hmemq, hnd', hqv', hql', hs1', hs2', hdom', hpar',
          hpre', hcov'⟩ :=
        ih (q ++ [n]) (aupdate pm n (some [c]))
          (fun m hm => hmem m (by simp [hm]))
          (fun m hm => hunv m (by simp [hm]))
          (List.nodup_cons.mp hnd).2 harg0 harg0b harg0c harg1 harg2 harg3 harg4
          harg5 harg6
      refine ⟨q', pm', heq, ?_, hnd', hqv', hql', hs1', hs2', hdom', hpar', ?_, ?_⟩
      · intro x
        rw [hmemq x]
        constructor
        · rintro (h | h)
          · rcases List.mem_append.mp h with h | h
            · exact Or.inl h
            · rcases List.mem_singleton.mp h with rfl
              exact Or.inr (by simp)
          · exact Or.inr (by simp [h])
        · rintro (h | h)
          · exact Or.inl (by simp [h])
          · rcases List.mem_cons.mp h with rfl | h
            · exact Or.inl (by simp)
            · exact Or.inr h
      · intro v ps' hv
        have hvn : v ≠ n := by
          intro h
          subst h
          rw [hlook] at hv
          simp at hv
        obtain ⟨e, he⟩ := hpre' v ps' (by
          rwa [alookup_aupdate_ne pm n v _ hvn])
        exact ⟨e, he⟩
      · intro m hm
        rcases List.mem_cons.mp hm with rfl | hm
        · obtain ⟨e, he⟩ := hpre' _ _ (alookup_aupdate_self pm m (some [c]))
          exact ⟨[c] ++ e, by rw [he], by simp⟩
        · exact hcov' m hm

/-- First crossing of a walk out of a set: a walk from inside `S` to outside `S` has an
edge from `S` to its complement. -/
theorem chain_crossing {R : α → α → Prop} {S : List α} {s : α} {p : List α}
    (hc : List.Chain R s p) (hsS : s ∈ S) (hend : walkEnd s p ∉ S) :
    ∃ u w, R u w ∧ u ∈ S ∧ w ∉ S := by
  induction p generalizing s with
  | nil => exact absurd hsS hend
  | cons b p' ih =>
    rcases List.chain_cons.mp hc with ⟨hsb, hc'⟩
    by_cases hbS : b ∈ S
    · exact ih hc' hbS (by rwa [walkEnd_cons] at hend)
    · exact ⟨s, b, hsb, hsS, hbS⟩

/-- One iteration of the `bfs` loop body preserves the invariant. -/
theorem bfsInv_step [DecidableEq α] {g : Graph α} {s t cur c : α} {st : BfsState α}
    {Q' : List α} (hv : ValidGraph g) (hinv : BfsInv g s t cur st) (hcur : cur ≠ t)
    (hq : st.queue = c :: Q') :
    ∃ nbrsC q' pm', alookup g c = some nbrsC ∧
      processNbrs c (nbrsC.filter (fun n => decide (n ∉ c :: st.visited))) Q' st.pm =
        some (q', pm') ∧
      BfsInv g s t c ⟨c :: st.visited, q', pm'⟩ := by
  obtain ⟨a0, A0, B0, h0⟩ := hinv
  obtain ⟨a, A2, B2, h, hQ, hdc⟩ := bfsInv_pop h0 hq
  have hc_queue : c ∈ st.queue := by rw [hq]; simp
  have hc_keys : c ∈ keys g := h.queue_keys c hc_queue
  have hc_some : (alookup g c).isSome := mem_keys_isSome hc_keys
  obtain ⟨nbrsC, hlookc⟩ := Option.isSome_iff_exists.mp hc_some
  have hnbrs : nbrs g c = nbrsC := by simp [nbrs, hlookc]
  have hc_notvis : c ∉ st.visited := h.queue_vis c hc_queue
  have hsvis : s ∈ c :: st.visited := by
    rcases h.base_or with ⟨hvnil, hq2, -, hc2, -⟩ | ⟨h1, -⟩
    · rw [hq2] at hq
      injection hq with hq1 hq2
      simp [hq1]
    · simp [h1]
  have hdd : ∀ v n, dEq g s v n → n ≤ a → (alookup st.pm v).isSome := by
    intro v n hd hn
    rcases Nat.lt_or_ge n a with h1 | h1
    · exact (h.pm_dom v).mpr (Or.inl (h.lt_vis v n hd h1))
    · have hna : n = a := by omega
      subst hna
      cases n with
      | zero =>
        have : v = s := dLe_zero hd.1
        exact (h.pm_dom v).mpr (Or.inr (Or.inr this))
      | succ a' =>
        obtain ⟨u, hadj, hdu⟩ := dEq_decompose hd
        have hu : u ∈ st.visited := h.lt_vis u a' hdu (by omega)
        rcases h.closure u hu v hadj with h2 | h2 | h2
        · exact (h.pm_dom v).mpr (Or.inl h2)
        · exact (h.pm_dom v).mpr (Or.inr (Or.inl h2))
        · exact (h.pm_dom v).mpr (Or.inr (Or.inr h2))
  have hns_mem : ∀ n ∈ nbrsC.filter (fun n => decide (n ∉ c :: st.visited)),
      n ∈ nbrs g c := by
    intro n hn
    rw [hnbrs]
    exact (List.mem_filter.mp hn).1
  have hns_unv : ∀ n ∈ nbrsC.filter (fun n => decide (n ∉ c :: st.visited)),
      n ∉ c :: st.visited := by
    intro n hn
    have := (List.mem_filter.mp hn).2
    exact of_decide_eq_true this
  have hns_nd : (nbrsC.filter (fun n => decide (n ∉ c :: st.visited))).Nodup := by
    have := hv.nbrs_nodup c hc_keys
    rw [hnbrs] at this
    exact this.filter _
  have hq_nd : Q'.Nodup := by
    have := h.queue_nodup
    rw [hq] at this
    exact (List.nodup_cons.mp this).2
  have hc_notQ' : c ∉ Q' := by
    have := h.queue_nodup
    rw [hq] at this
    exact (List.nodup_cons.mp this).1
  have hq_unvis : ∀ x ∈ Q', x ∉ c :: st.visited := by
    intro x hx
    simp only [List.mem_cons]
    rintro (rfl | hxv)
    · exact hc_notQ' hx
    · exact h.queue_vis x (by rw [hq]; simp [hx]) hxv
  have hq_layer : ∃ A B, Q' = A ++ B ∧ (∀ x ∈ A, dEq g s x a) ∧
      (∀ x ∈ B, dEq g s x (a + 1)) :=
    ⟨A2, B2, hQ, fun x hx => h.layerA x (by simp [hx]), h.layerB⟩
  have hdom' : ∀ v, (alookup st.pm v).isSome ↔
      (v ∈ c :: st.visited ∨ v ∈ Q' ∨ v = s) := by
    intro v
    rw [h.pm_dom v, hq]
    simp only [List.mem_cons]
    tauto
  have hpar' : ∀ v ps, alookup st.pm v = some (some ps) → ps ≠ [] ∧ ps.Nodup ∧
      (∀ u ∈ ps, adj g u v ∧ u ∈ c :: st.visited) ∧
      ∃ k h, dEq g s v k ∧ ps.head? = some h ∧ dEq g s h (k - 1) ∧ 1 ≤ k := by
    intro v ps hvps
    obtain ⟨h1, h2, h3, h4⟩ := h.pm_par v ps hvps
    exact ⟨h1, h2, fun u hu => ⟨(h3 u hu).1, by simp [(h3 u hu).2]⟩, h4⟩
  have hnoc : ∀ n ∈ nbrsC.filter (fun n => decide (n ∉ c :: st.visited)), ∀ ps,
      alookup st.pm n = some (some ps) → c ∉ ps := by
    intro n _ ps hn hc_in
    exact hc_notvis ((h.pm_par n ps hn).2.2.1 c hc_in).2
  obtain ⟨q', pm', heq, hmemq, hnd', hqv', hql', hs1', hs2', hdom2, hpar2, hpre2,
      hcov2⟩ :=
    processNbrs_spec s c st.visited a hsvis hdc
      (nbrsC.filter (fun n => decide (n ∉ c :: st.visited))) Q' st.pm
      hns_mem hns_unv hns_nd hq_nd hq_unvis hq_layer h.pm_src h.pm_none hdom'
      hpar' hnoc hdd
  obtain ⟨A', B', hq'eq, hA', hB'⟩ := hql'
  refine ⟨nbrsC, q', pm', hlookc, heq, a, A', B', ?_⟩
  refine
    { queue_eq := hq'eq
      layerA := hA'
      layerB := hB'
      queue_nodup := hnd'
      queue_vis := hqv'
      vis_le := ?_
      lt_vis := ?_
      closure := ?_
      pm_src := hs1'
      pm_none := hs2'
      pm_dom := hdom2
      pm_par := hpar2
      pm_rec := ?_
      vis_keys := ?_
      queue_keys := ?_
      vis_nodup := by simp [List.nodup_cons, hc_notvis, h.vis_nodup]
      target_not := ?_
      base_or := Or.inr ⟨hsvis, by simp⟩ }
  · intro v hv2
    rcases List.mem_cons.mp hv2 with rfl | hv2
    · exact ⟨a, le_refl a, hdc⟩
    · exact h.vis_le v hv2
  · intro v n hd hn
    exact List.mem_cons_of_mem c (h.lt_vis v n hd hn)
  · intro u hu v hv2
    rcases List.mem_cons.mp hu with rfl | hu
    · by_cases hvv : v ∈ u :: st.visited
      · exact Or.inl hvv
      · refine Or.inr (Or.inl ?_)
        rw [hmemq v]
        refine Or.inr (List.mem_filter.mpr ⟨?_, decide_eq_true hvv⟩)
        rwa [hnbrs] at hv2
    · rcases h.closure u hu v hv2 with h2 | h2 | h2
      · exact Or.inl (by simp [h2])
      · rw [hq] at h2
        rcases List.mem_cons.mp h2 with rfl | h2
        · exact Or.inl (by simp)
        · exact Or.inr (Or.inl (by rw [hmemq v]; exact Or.inl h2))
      · exact Or.inr (Or.inr h2)
  · intro u v k hu hadj hdu hdv
    rcases List.mem_cons.mp hu with rfl | hu
    · have hka : k = a := dEq_unique hdu hdc
      subst hka
      have hv_unvis : v ∉ u :: st.visited := by
        simp only [List.mem_cons]
        rintro (rfl | hvv)
        · have := dEq_unique hdu hdv
          omega
        · obtain ⟨m, hm, hdm⟩ := h.vis_le v hvv
          have := dEq_unique hdm hdv
          omega
      refine hcov2 v (List.mem_filter.mpr ⟨?_, decide_eq_true hv_unvis⟩)
      have hadj' : v ∈ nbrs g u := hadj
      rwa [hnbrs] at hadj'
    · obtain ⟨ps, hps, hups⟩ := h.pm_rec u v k hu hadj hdu hdv
      obtain ⟨e, he⟩ := hpre2 v ps hps
      exact ⟨ps ++ e, he, by simp [hups]⟩
  · intro v hv2
    rcases List.mem_cons.mp hv2 with rfl | hv2
    · exact hc_keys
    · exact h.vis_keys v hv2
  · intro v hv2
    rcases (hmemq v).mp hv2 with h2 | h2
    · exact h.queue_keys v (by rw [hq]; simp [h2])
    · have := hns_mem v h2
      exact hv.closed c hc_keys v this
  · by_cases hct : c = t
    · exact Or.inr hct
    · refine Or.inl ?_
      simp only [List.mem_cons]
      rintro (rfl | htv)
      · exact hct rfl
      · rcases h.target_not with h2 | h2
        · exact h2 htv
        · exact hcur h2

/-- The `bfs` loop runs to completion: with the invariant established and enough fuel,
it dequeues the target and returns a state satisfying the invariant at `cur = t`. -/
theorem bfsLoop_run [DecidableEq α] {g : Graph α} {s t : α} (hv : ValidGraph g)
    (hreach : Reach g s t) :
    ∀ (fuel : Nat) (cur : α) (st : BfsState α), BfsInv g s t cur st →
      g.length + 1 ≤ fuel + st.visited.length →
      ∃ st', bfsLoop g t fuel cur st = some st' ∧ BfsInv g s t t st' := by
  intro fuel
  induction fuel with
  | zero =>
    intro cur st hinv hfuel
    exfalso
    obtain ⟨a, A, B, h⟩ := hinv
    have h1 : st.visited.length ≤ (keys g).length :=
      nodup_length_le h.vis_nodup h.vis_keys
    rw [keys_length] at h1
    omega
  | succ fuel ih =>
    intro cur st hinv hfuel
    by_cases hcur : cur = t
    · subst hcur
      exact ⟨st, by simp [bfsLoop], hinv⟩
    · obtain ⟨a, A, B, h⟩ := hinv
      have hqne : st.queue ≠ [] := by
        intro hqnil
        have htnv : t ∉ st.visited := by
          rcases h.target_not with h1 | h1
          · exact h1
          · exact absurd h1 hcur
        rcases h.base_or with ⟨-, hq2, -, -, -⟩ | ⟨hsv, -⟩
        · rw [hq2] at hqnil
          simp at hqnil
        · obtain ⟨p, hp⟩ := hreach
          rcases (isPath_iff g s t p).mp hp with ⟨hc, he⟩
          obtain ⟨u, w, hadj, huS, hwS⟩ := chain_crossing hc hsv (by rwa [he])
          rcases h.closure u huS w hadj with h2 | h2 | h2
          · exact hwS h2
          · rw [hqnil] at h2
            simp at h2
          · exact hwS (h2 ▸ hsv)
      obtain ⟨c, Q', hq⟩ := List.exists_cons_of_ne_nil hqne
      obtain ⟨nbrsC, q', pm', hlookc, hproc, hinv'⟩ :=
        bfsInv_step hv ⟨a, A, B, h⟩ hcur hq
      have hstep : bfsLoop g t (fuel + 1) cur st =
          bfsLoop g t fuel c ⟨c :: st.visited, q', pm'⟩ := by
        have hfilt : List.filter (fun n => !decide (n = c) && !decide (n ∈ st.visited))
            nbrsC = List.filter (fun n => decide (n ∉ c :: st.visited)) nbrsC := by
          apply List.filter_congr
          intro x _
          simp
        simp [bfsLoop, hcur, hq, hlookc, hfilt, hproc]
      rw [hstep]
      refine ih c ⟨c :: st.visited, q', pm'⟩ hinv' ?_
      have hlen : (BfsState.mk (c :: st.visited) q' pm').visited.length =
          st.visited.length + 1 := by simp
      omega

/-! ### From the exit invariant to the `bfs` result -/

theorem chains_isPath [DecidableEq α] {g : Graph α} {pm : List (α × Option (List α))}
    {s : α} (hadj : ∀ v ps, alookup pm v = some (some ps) → ∀ u ∈ ps, adj g u v) :
    ∀ {v : α} {l : List α}, Chains pm s v l → IsPath g s v l.reverse := by
  intro v l hch
  induction hch with
  | nil => exact (isPath_nil_iff g s s).mpr rfl
  | cons hl hmem hch ih =>
    rename_i node u ps l'
    rw [List.reverse_cons]
    rcases (isPath_iff g s u l'.reverse).mp ih with ⟨hc, he⟩
    refine (isPath_snoc g s node node l'.reverse).mpr ⟨hc, ?_, rfl⟩
    rw [he]
    exact hadj _ _ hl u hmem

theorem bfsInvAt_pmGood [DecidableEq α] {g : Graph α} {s t ct : α} {st : BfsState α}
    {a : Nat} {A B : List α} (h : BfsInvAt g s t ct st a A B) : PmGood st.pm s where
  src := h.pm_src
  none_src := h.pm_none
  good := fun v ps hps => ⟨(h.pm_par v ps hps).2.1,
    fun u hu => (h.pm_dom u).mpr (Or.inl ((h.pm_par v ps hps).2.2.1 u hu).2)⟩

/-- Completeness: every minimum-length walk from the source is recorded as a parent
chain once the target has been dequeued. -/
theorem minpath_chains [DecidableEq α] {g : Graph α} {s t ct : α} {st : BfsState α}
    {a : Nat} {A B : List α} (h : BfsInvAt g s t ct st a A B) {d : Nat} (hda : d ≤ a) :
    ∀ (p : List α) (v : α) (k : Nat), IsPath g s v p → p.length = k → dEq g s v k →
      k ≤ d → Chains st.pm s v p.reverse := by
  intro p
  induction p using List.reverseRecOn with
  | nil =>
    intro v k hp _ _ _
    rcases (isPath_nil_iff g s v).mp hp
    exact Chains.nil
  | append_singleton q w ihq =>
    intro v k hp hlen hdv hkd
    rcases (isPath_snoc g s v w q).mp hp with ⟨hc, hadj, rfl⟩
    have hk : k = q.length + 1 := by
      rw [← hlen]
      simp
    subst hk
    have hqu : IsPath g s (walkEnd s q) q := (isPath_iff g s _ q).mpr ⟨hc, rfl⟩
    have hdu : dEq g s (walkEnd s q) q.length := by
      refine ⟨⟨q, hqu, le_refl _⟩, ?_⟩
      intro m hm
      by_contra hlt
      push_neg at hlt
      have h2 : dLe g s v (m + 1) := dLe_succ_of_adj hm hadj
      have := hdv.2 (m + 1) h2
      omega
    have huvis : walkEnd s q ∈ st.visited := h.lt_vis _ q.length hdu (by omega)
    obtain ⟨ps, hps, hups⟩ := h.pm_rec _ v q.length huvis hadj hdu hdv
    have hrev : (q ++ [v]).reverse = v :: q.reverse := by simp
    rw [hrev]
    exact Chains.cons hps hups (ihq (walkEnd s q) q.length hqu rfl hdu (by omega))

/-- The measurement loop walks first parents back to the source in exactly
`distance` steps. -/
theorem distWalk_spec [DecidableEq α] {g : Graph α} {s t ct : α} {st : BfsState α}
    {a : Nat} {A B : List α} (h : BfsInvAt g s t ct st a A B) :
    ∀ (k fuel : Nat) (v : α) (acc : List α), dEq g s v k →
      (alookup st.pm v).isSome → k + 1 ≤ fuel →
      ∃ w, distWalk s st.pm fuel v acc = some w ∧ w.length = acc.length + k := by
  intro k
  induction k with
  | zero =>
    intro fuel v acc hd hdom hfuel
    have hv : v = s := dLe_zero hd.1
    subst hv
    cases fuel with
    | zero => omega
    | succ f => exact ⟨acc, by simp [distWalk], by simp⟩
  | succ k ihk =>
    intro fuel v acc hd hdom hfuel
    have hvs : v ≠ s := by
      intro hvv
      subst hvv
      have := dEq_unique hd (dEq_source g v)
      omega
    cases fuel with
    | zero => omega
    | succ f =>
      obtain ⟨val, hval⟩ := Option.isSome_iff_exists.mp hdom
      cases val with
      | none => exact absurd (h.pm_none v hval) hvs
      | some ps =>
        obtain ⟨hne, hndps, hmemps, k', h', hdk', hhead, hdh, hk1⟩ := h.pm_par v ps hval
        have hk'k : k' = k + 1 := dEq_unique hdk' hd
        cases ps with
        | nil => exact absurd rfl hne
        | cons p0 ps' =>
          have hp0 : p0 = h' := by simpa using hhead
          have hdp0 : dEq g s p0 k := by
            rw [hp0]
            rw [hk'k] at hdh
            simpa using hdh
          have hdom0 : (alookup st.pm p0).isSome :=
            (h.pm_dom p0).mpr (Or.inl (hmemps p0 (by simp)).2)
          have hstep : distWalk s st.pm (f + 1) v acc =
              distWalk s st.pm f p0 (acc ++ [v]) := by
            simp [distWalk, hvs, hval]
          rw [hstep]
          obtain ⟨w, hw, hwl⟩ := ihk f p0 (acc ++ [v]) hdp0 hdom0 (by omega)
          refine ⟨w, hw, ?_⟩
          rw [hwl]
          simp
          omega

/-- Main correctness of `bfs` on a valid graph with distinct source and target keys:
it succeeds, returns the exact shortest distance, and its path list contains exactly
the tails of the minimum-length walks (each walk `source :: q`, stored without the
source), duplicate-free and sorted. -/
theorem bfs_main [LinearOrder α] {g : Graph α} {s t : α} (hv : ValidGraph g)
    (hs : s ∈ keys g) (ht : t ∈ keys g) (hst : s ≠ t) :
    ∃ paths d, bfs g s t = some (paths, d) ∧ IsShortestDist g s t d ∧
      (∀ q, q ∈ paths ↔ (IsPath g s t q ∧ q.length = d)) ∧
      paths.Nodup ∧ List.Sorted (· ≤ ·) paths ∧ 1 ≤ d := by
  have hreach : Reach g s t := hv.conn s hs t ht
  obtain ⟨d, hd⟩ := exists_dEq hreach
  have hinv0 : BfsInv g s t s ⟨[], [s], [(s, none)]⟩ :=
    ⟨0, [s], [], bfsInv_init g s t hs⟩
  obtain ⟨st', hloop, hinv'⟩ :=
    bfsLoop_run hv hreach (g.length + 1) s _ hinv0 (by simp)
  obtain ⟨a, A, B, h⟩ := hinv'
  have htvis : t ∈ st'.visited := by
    rcases h.base_or with ⟨-, -, -, hc, -⟩ | ⟨-, hcv⟩
    · exact absurd hc.symm hst
    · exact hcv
  have hda : d ≤ a := by
    obtain ⟨n, hn, hdn⟩ := h.vis_le t htvis
    have := dEq_unique hd hdn
    omega
  have hd1 : 1 ≤ d := by
    rcases Nat.eq_zero_or_pos d with h0 | h1
    · rw [h0] at hd
      exact absurd (dLe_zero hd.1) (Ne.symm hst)
    · exact h1
  have hdlt : d < g.length := dEq_lt_length hv.closed hs hd
  have htdom : (alookup st'.pm t).isSome := (h.pm_dom t).mpr (Or.inl htvis)
  obtain ⟨w, hw, hwl⟩ := distWalk_spec h d (g.length + 1) t [] hd htdom (by omega)
  have hwl' : w.length = d := by simpa using hwl
  have hadje : ∀ v ps, alookup st'.pm v = some (some ps) → ∀ u ∈ ps, adj g u v :=
    fun v ps hps u hu => ((h.pm_par v ps hps).2.2.1 u hu).1
  have hminl : ∀ l, Chains st'.pm s t l → w.length ≤ l.length := by
    intro l hl
    rw [hwl']
    have hp := chains_isPath hadje hl
    have := hd.2 l.reverse.length ⟨l.reverse, hp, le_refl _⟩
    simpa using this
  obtain ⟨r, hr, hrchar, hrnd, hrsort⟩ :=
    get_paths_char (bfsInvAt_pmGood h) w.length (g.length + 2) htdom hminl
      (by omega)
  refine ⟨r, w.length, ?_, ?_, ?_, hrnd, hrsort, by omega⟩
  · simp [bfs, hst, hloop, hw, hr]
  · rw [hwl']
    exact ⟨dEq_exact_path hd, fun p hp => hd.2 p.length ⟨p, hp, le_refl _⟩⟩
  · intro q
    rw [hrchar q, hwl']
    constructor
    · rintro ⟨l, hch, hle, rfl⟩
      have hp := chains_isPath hadje hch
      have hge : d ≤ l.length := by
        have := hd.2 l.reverse.length ⟨l.reverse, hp, le_refl _⟩
        simpa using this
      have hlen : l.reverse.length = d := by
        simp
        omega
      exact ⟨hp, hlen⟩
    · rintro ⟨hp, hlen⟩
      refine ⟨q.reverse, ?_, by simpa using le_of_eq hlen, by simp⟩
      exact minpath_chains h hda q t d hp hlen hd (le_refl d)

/-! ### Presenter refinement -/

theorem collapseGaps_cons_ne (g : Finset String) (y : String) (l : List String) :
    collapseGaps g (y :: l) ≠ [] := by
  by_cases h : y ∈ g <;> simp [collapseGaps, h]

theorem pipAux_gap (g : Finset String) :
    ∀ l : List String, pipAux g true l =
      (if (l.dropWhile (fun y => decide (y ∉ g))).isEmpty then ""
       else " -> " ++ pipAux g false (l.dropWhile (fun y => decide (y ∉ g)))) := by
  intro l
  induction l with
  | nil => simp [pipAux]
  | cons x rest ih =>
    rw [List.dropWhile_cons]
    by_cases hx : x ∈ g
    · simp [pipAux, hx, String.append_assoc]
    · simp [pipAux, hx, ih]

theorem pipAux_false_eq (g : Finset String) :
    ∀ (n : Nat) (l : List String), l.length ≤ n →
      pipAux g false l = joinArrows (collapseGaps g l) := by
  intro n
  induction n with
  | zero =>
    intro l hl
    have h0 : l = [] := List.length_eq_zero.mp (Nat.le_zero.mp hl)
    subst h0
    simp [pipAux, collapseGaps, joinArrows]
  | succ n ihn =>
    intro l hl
    cases l with
    | nil => simp [pipAux, collapseGaps, joinArrows]
    | cons x rest =>
      by_cases hx : x ∈ g
      · have hcg : collapseGaps g (x :: rest) = x :: collapseGaps g rest := by
          simp [collapseGaps, hx]
        rw [hcg]
        cases rest with
        | nil => simp [pipAux, hx, collapseGaps, joinArrows]
        | cons r rest' =>
          obtain ⟨tok, toks, htoks⟩ :=
            List.exists_cons_of_ne_nil (collapseGaps_cons_ne g r rest')
          have hih := ihn (r :: rest') (by simp at hl ⊢; omega)
          rw [htoks] at hih
          rw [htoks]
          have hj : joinArrows (x :: tok :: toks) =
              x ++ " -> " ++ joinArrows (tok :: toks) := rfl
          rw [hj, ← hih]
          simp [pipAux, hx, String.append_assoc]
      · have hcg : collapseGaps g (x :: rest) =
            "..." :: collapseGaps g (rest.dropWhile (fun y => decide (y ∉ g))) := by
          simp [collapseGaps, hx]
        rw [hcg]
        have hpa : pipAux g false (x :: rest) = "..." ++ pipAux g true rest := by
          simp [pipAux, hx]
        rw [hpa, pipAux_gap g rest]
        cases hdw : rest.dropWhile (fun y => decide (y ∉ g)) with
        | nil => simp [collapseGaps, joinArrows]
        | cons y l' =>
          obtain ⟨tok, toks, htoks⟩ :=
            List.exists_cons_of_ne_nil (collapseGaps_cons_ne g y l')
          have hlen : (y :: l').length ≤ n := by
            have h1 : (rest.dropWhile (fun y => decide (y ∉ g))).length ≤
                rest.length := (List.dropWhile_suffix _).length_le
            rw [hdw] at h1
            simp at hl
            omega
          have hih := ihn (y :: l') hlen
          rw [htoks] at hih ⊢
          simp [joinArrows, hih, String.append_assoc]
          rw [← String.append_assoc]
          have harr : ("..." ++ " -> " : String) = "... -> " := rfl
          rw [harr]

/-- `print_incomplete_path` is exactly the spec's presenter: known nodes in order,
separated by arrows, each maximal run of unknown nodes collapsed to one `"..."`. -/
theorem print_incomplete_path_eq (path : List String) (guesses : Finset String) :
    print_incomplete_path path guesses = joinArrows (collapseGaps guesses path) :=
  pipAux_false_eq guesses path.length path (le_refl _)

/-! ### Validator trace lemmas -/

theorem check_entries_flag_false [DecidableEq α] (g : Graph α) (s t : α)
    (h : (check_entries g s t).1 = false) : (check_entries g s t).2 = [] := by
  by_cases h1 : s ∈ keys g <;> by_cases h2 : t ∈ keys g <;>
    simp [check_entries, h1, h2] at h ⊢

theorem check_adjacency_flag_false [DecidableEq α] (g : Graph α)
    (h : (check_adjacency g).1 = false) : (check_adjacency g).2 = [] := by
  unfold check_adjacency at h ⊢
  cases hit : check_adjacency_items g g <;> simp [hit] at h ⊢

theorem check_entries_trace_le [DecidableEq α] (g : Graph α) (s t : α) :
    (check_entries g s t).2.length ≤ 1 := by
  by_cases h1 : s ∈ keys g <;> by_cases h2 : t ∈ keys g <;>
    simp [check_entries, h1, h2]

theorem check_adjacency_trace_le [DecidableEq α] (g : Graph α) :
    (check_adjacency g).2.length ≤ 1 := by
  unfold check_adjacency
  cases hit : check_adjacency_items g g <;> simp

theorem check_connectedness_trace_le [DecidableEq α] (g : Graph α) (b : Bool)
    (tr : List (Violation α)) (h : check_connectedness g = some (b, tr)) :
    tr.length ≤ 1 := by
  cases g with
  | nil => simp [check_connectedness] at h
  | cons e g' =>
    simp only [check_connectedness] at h
    cases hc : connLoop (e :: g') (connFuel (e :: g')) [] [e.1] with
    | none => rw [hc] at h; simp at h
    | some visited =>
      rw [hc] at h
      dsimp only at h
      by_cases hlt : visited.length < (e :: g').length
      · rw [if_pos hlt] at h
        injection h with h1
        injection h1 with hb htr
        rw [← htr]
        simp
      · rw [if_neg hlt] at h
        injection h with h1
        injection h1 with hb htr
        rw [← htr]
        simp

/-! ### Shape facts about the paths returned by `bfs` -/

theorem getLast?_cons_of_ne_nil {a : α} {p : List α} (h : p ≠ []) :
    (a :: p).getLast? = p.getLast? := by
  cases p with
  | nil => exact absurd rfl h
  | cons x xs => exact List.getLast?_cons_cons

theorem bfs_path_shape [LinearOrder α] {g : Graph α} {s t : α}
    {paths : List (List α)} {d : Nat} (hv : ValidGraph g) (hs : s ∈ keys g)
    (ht : t ∈ keys g) (hst : s ≠ t) (hb : bfs g s t = some (paths, d)) :
    1 ≤ d ∧ ∀ p ∈ paths, p ≠ [] ∧ p.length = d ∧ p.getLast? = some t ∧
      List.Chain (adj g) s p ∧ (s :: p).Nodup ∧ s ∉ p ∧ t ∉ p.dropLast := by
  obtain ⟨paths', d', hb', hsd, hchar, -, -, hd1⟩ := bfs_main hv hs ht hst
  rw [hb] at hb'
  injection hb' with hb2
  injection hb2 with hb3 hb4
  subst hb3
  subst hb4
  refine ⟨hd1, ?_⟩
  intro p hp
  obtain ⟨hip, hlen⟩ := (hchar p).mp hp
  have hpne : p ≠ [] := by
    intro h0
    subst h0
    simp at hlen
    omega
  have hnd : (s :: p).Nodup := by
    refine minWalk_nodup hip ?_
    intro q hq
    rw [hlen]
    exact hsd.2 q hq
  have hlast : p.getLast? = some t := by
    have := hip.2
    rwa [getLast?_cons_of_ne_nil hpne] at this
  obtain ⟨q, hq⟩ := List.getLast?_eq_some_iff.mp hlast
  have hdl : p.dropLast = q := by
    rw [hq]
    simp
  refine ⟨hpne, hlen, hlast, hip.1, hnd, (List.nodup_cons.mp hnd).1, ?_⟩
  rw [hdl]
  intro htq
  have h1 : p.Nodup := (List.nodup_cons.mp hnd).2
  rw [hq] at h1
  rcases List.nodup_append.mp h1 with ⟨-, -, hdisj⟩
  exact hdisj htq (by simp)

/-! ### The example graphs are valid -/

theorem exG_reach : ∀ u ∈ keys exG, ∀ v ∈ keys exG, Reach exG u v := by
  intro u hu v hv
  simp [exG, keys] at hu hv
  rcases hu with rfl | rfl | rfl <;> rcases hv with rfl | rfl | rfl
  · exact ⟨[], by decide⟩
  · exact ⟨[1], by decide⟩
  · exact ⟨[1, 2], by decide⟩
  · exact ⟨[0], by decide⟩
  · exact ⟨[], by decide⟩
  · exact ⟨[2], by decide⟩
  · exact ⟨[1, 0], by decide⟩
  · exact ⟨[1], by decide⟩
  · exact ⟨[], by decide⟩

theorem exG_valid : ValidGraph exG :=
  ⟨by decide, by decide, exG_reach, by decide⟩

/-! ### Game-turn lemmas -/

theorem gameStep_mistake [DecidableEq α] (source target : α) (maxM : Nat)
    (st : GameState α) (guess : α)
    (hwin : ∀ p ∈ st.paths, ¬(p.length = (insert guess st.guesses).card ∧
      p.toFinset = insert guess st.guesses))
    (hsub : ∀ p ∈ st.paths, ¬(insert guess st.guesses ⊆ p.toFinset)) :
    gameStep source target maxM st guess =
      (if st.mistakes + 1 = maxM then
        match print_paths_out source target st.remaining with
        | none => none
        | some out => some (.lost out ⟨st.paths, st.remaining,
            (insert guess st.guesses).erase guess, st.mistakes + 1⟩)
      else some (.mistake ⟨st.paths, st.remaining,
        (insert guess st.guesses).erase guess, st.mistakes + 1⟩)) := by
  have h1 : st.paths.find? (fun p => decide (p.length = (insert guess st.guesses).card)
      && decide (p.toFinset = insert guess st.guesses)) = none := by
    rw [List.find?_eq_none]
    intro p hp
    simp only [Bool.and_eq_true, decide_eq_true_eq, not_and]
    intro ha hb
    exact hwin p hp ⟨ha, hb⟩
  have h2 : st.paths.find? (fun p => decide (insert guess st.guesses ⊆ p.toFinset)) =
      none := by
    rw [List.find?_eq_none]
    intro p hp
    simp only [decide_eq_true_eq]
    exact hsub p hp
  simp only [gameStep, h1, h2]

theorem bfs_sorted [LinearOrder α] (g : Graph α) (s t : α) (paths : List (List α))
    (d : Nat) (h : bfs g s t = some (paths, d)) : List.Sorted (· ≤ ·) paths := by
  unfold bfs at h
  split at h
  · injection h with h1
    injection h1 with h2 h3
    rw [← h2]
    exact List.sorted_nil
  · cases hl : bfsLoop g t (g.length + 1) s ⟨[], [s], [(s, none)]⟩ with
    | none => rw [hl] at h; simp at h
    | some st =>
      rw [hl] at h
      dsimp only at h
      cases hw : distWalk s st.pm (g.length + 1) t [] with
      | none => rw [hw] at h; simp at h
      | some w =>
        rw [hw] at h
        dsimp only at h
        cases hg : get_paths s t st.pm w.length (g.length + 2) with
        | none => rw [hg] at h; simp at h
        | some r =>
          rw [hg] at h
          dsimp only at h
          injection h with h1
          injection h1 with h2 h3
          unfold get_paths at hg
          cases ha : get_paths_aux s st.pm w.length (g.length + 2) [] t with
          | none => rw [ha] at hg; simp at hg
          | some pr =>
            rw [ha] at hg
            dsimp only at hg
            injection hg with hg1
            rw [← h2, ← hg1]
            exact List.sorted_insertionSort _ _

/-! ### The claims -/

/-- C1: on a valid graph with distinct source and target keys, every path returned by
`bfs` has edge count exactly the returned distance (a returned path `p` excludes the
source, so the walk it denotes is `s :: p` with `p.length` edges), and no source→target
walk in the graph has fewer edges. -/
theorem bfs_lengths_eq_distance_and_minimal [LinearOrder α] {g : Graph α} {s t : α}
    {paths : List (List α)} {d : Nat} (hv : ValidGraph g) (hs : s ∈ keys g)
    (ht : t ∈ keys g) (hst : s ≠ t) (hb : bfs g s t = some (paths, d)) :
    (∀ p ∈ paths, p.length = d) ∧ ∀ q, IsPath g s t q → d ≤ q.length := by
  obtain ⟨paths', d', hb', hsd, hchar, -, -, -⟩ := bfs_main hv hs ht hst
  rw [hb] at hb'
  injection hb' with h1
  injection h1 with h2 h3
  subst h2
  subst h3
  exact ⟨fun p hp => ((hchar p).mp hp).2, hsd.2⟩

theorem bfs_lengths_eq_distance_and_minimal_witness :
    ([1, 2] : List ℕ).length = 2 ∧ 2 ≤ ([1, 2] : List ℕ).length :=
  ⟨(@bfs_lengths_eq_distance_and_minimal ℕ _ exG 0 2 [[1, 2]] 2 exG_valid (by decide)
      (by decide) (by decide) (by decide)).1 [1, 2] (by decide),
   (@bfs_lengths_eq_distance_and_minimal ℕ _ exG 0 2 [[1, 2]] 2 exG_valid (by decide)
      (by decide) (by decide) (by decide)).2 [1, 2] (by decide)⟩

/-- C2: on a valid graph with distinct source and target keys, the path list returned
by `bfs` is exhaustive and duplicate-free: every minimum-length path occurs exactly once
in it, and everything in it is a minimum-length path. -/
theorem bfs_pathset_exhaustive_no_duplicates [LinearOrder α] {g : Graph α} {s t : α}
    {paths : List (List α)} {d : Nat} (hv : ValidGraph g) (hs : s ∈ keys g)
    (ht : t ∈ keys g) (hst : s ≠ t) (hb : bfs g s t = some (paths, d)) :
    (∀ q, IsPath g s t q ∧ q.length = d →
      @List.count (List α) instBEqOfDecidableEq q paths = 1) ∧
      ∀ q ∈ paths, IsPath g s t q ∧ q.length = d := by
  obtain ⟨paths', d', hb', -, hchar, hnd, -, -⟩ := bfs_main hv hs ht hst
  rw [hb] at hb'
  injection hb' with h1
  injection h1 with h2 h3
  subst h2
  subst h3
  exact ⟨fun q hq => List.count_eq_one_of_mem hnd ((hchar q).mpr hq),
    fun q hq => (hchar q).mp hq⟩

theorem bfs_pathset_exhaustive_no_duplicates_witness :
    @List.count (List ℕ) instBEqOfDecidableEq [1, 2] [[1, 2]] = 1 ∧
      (IsPath exG 0 2 [1, 2] ∧ ([1, 2] : List ℕ).length = 2) :=
  ⟨(@bfs_pathset_exhaustive_no_duplicates ℕ _ exG 0 2 [[1, 2]] 2 exG_valid (by decide)
      (by decide) (by decide) (by decide)).1 [1, 2] ⟨by decide, by decide⟩,
   (@bfs_pathset_exhaustive_no_duplicates ℕ _ exG 0 2 [[1, 2]] 2 exG_valid (by decide)
      (by decide) (by decide) (by decide)).2 [1, 2] (by decide)⟩

/-- C3 (amended): every path returned by `bfs` is a nonempty ordered node sequence that
follows graph adjacency from the source and ends with the target, with length equal to
the walk's edge count — but it *excludes* the source node: it begins with the source's
successor, not with the source. -/
theorem bfs_path_endpoints_amended [LinearOrder α] {g : Graph α} {s t : α}
    {paths : List (List α)} {d : Nat} (hv : ValidGraph g) (hs : s ∈ keys g)
    (ht : t ∈ keys g) (hst : s ≠ t) (hb : bfs g s t = some (paths, d)) :
    ∀ p ∈ paths, p ≠ [] ∧ p.getLast? = some t ∧ s ∉ p ∧
      List.Chain (adj g) s p ∧ p.length = d := by
  obtain ⟨-, hshape⟩ := bfs_path_shape hv hs ht hst hb
  intro p hp
  obtain ⟨h1, h2, h3, h4, -, h6, -⟩ := hshape p hp
  exact ⟨h1, h3, h6, h4, h2⟩

theorem bfs_path_endpoints_amended_witness :
    ([1, 2] : List ℕ) ≠ [] ∧ ([1, 2] : List ℕ).getLast? = some 2 ∧
      (0 : ℕ) ∉ ([1, 2] : List ℕ) ∧ List.Chain (adj exG) 0 [1, 2] ∧
      ([1, 2] : List ℕ).length = 2 :=
  @bfs_path_endpoints_amended ℕ _ exG 0 2 [[1, 2]] 2 exG_valid (by decide) (by decide)
    (by decide) (by decide) [1, 2] (by decide)

/-- C3 counterexample: on the line graph `X–Y–Z` (`0–1–2`), the unique returned path is
`[Y, Z]`: it does not begin with the source `X`. -/
theorem bfs_path_omits_source_counterexample :
    bfs exG 0 2 = some ([[1, 2]], 2) ∧ ([1, 2] : List ℕ).head? ≠ some 0 := by decide

/-- C4 (amended): in the scenario graph `{X: [Y], Y: [X, Z], Z: [Y]}` (`X,Y,Z` =
`0,1,2`) with source `X`, target `Z`: `bfs` returns distance 2 with path list `[[Y, Z]]`
(the source is not part of a stored path); after the target is trimmed the stored path
is `[Y]`, so guessing `Y` alone immediately wins with 0 mistakes, and guessing `X`
counts as a mistake. -/
theorem guess_session_scenario_amended :
    bfs exG 0 2 = some ([[1, 2]], 2) ∧
      initGame [[1, 2]] = (⟨[[1]], [[1]], ∅, 0⟩ : GameState ℕ) ∧
      gameStep 0 2 3 (initGame [[1, 2]]) 1 = some (.won [0, 1, 2] 0) ∧
      gameStep 0 2 3 (initGame [[1, 2]]) 0 =
        some (.mistake ⟨[[1]], [[1]], ∅, 1⟩) := by decide

/-- C4 counterexample: in the scenario the returned path list is `[[Y, Z]]`, not
`[[X, Y, Z]]`, and guessing `Y` is not merely accepted as a partial match: it wins the
session outright with 0 mistakes (the trimmed path is `[Y]`, not `[X, Y]`). -/
theorem guess_session_scenario_counterexample :
    bfs exG 0 2 = some ([[1, 2]], 2) ∧
      ([[1, 2]] : List (List ℕ)) ≠ [[0, 1, 2]] ∧
      gameStep 0 2 3 (initGame [[1, 2]]) 1 = some (.won [0, 1, 2] 0) := by decide

/-- C5 (amended): `check_graph` short-circuits: its printed trace holds at most one
message — the first failing check's single message; when `check_entries` fails its
message is the whole trace (adjacency and connectedness never run), and when
`check_entries` passes but `check_adjacency` fails, the adjacency message is the whole
trace. -/
theorem check_graph_short_circuit_amended [DecidableEq α] {g : Graph α} {s t : α}
    {b : Bool} {tr : List (Violation α)} (h : check_graph g s t = some (b, tr)) :
    tr.length ≤ 1 ∧
      ((check_entries g s t).1 = true → tr = (check_entries g s t).2) ∧
      ((check_entries g s t).1 = false → (check_adjacency g).1 = true →
        tr = (check_adjacency g).2) := by
  simp only [check_graph] at h
  by_cases h1 : (check_entries g s t).1 = true
  · rw [if_pos h1] at h
    injection h with h'
    injection h' with hb htr
    subst htr
    refine ⟨check_entries_trace_le g s t, fun _ => rfl, fun hf _ => ?_⟩
    rw [hf] at h1
    exact absurd h1 (by decide)
  · rw [if_neg h1] at h
    have h1f : (check_entries g s t).1 = false := by
      revert h1
      cases (check_entries g s t).1 <;> simp
    have he : (check_entries g s t).2 = [] := check_entries_flag_false g s t h1f
    by_cases h2 : (check_adjacency g).1 = true
    · rw [if_pos h2] at h
      injection h with h'
      injection h' with hb htr
      subst htr
      refine ⟨?_, fun hT => absurd hT h1, fun _ _ => ?_⟩
      · rw [he]
        simpa using check_adjacency_trace_le g
      · rw [he]
        simp
    · rw [if_neg h2] at h
      have h2f : (check_adjacency g).1 = false := by
        revert h2
        cases (check_adjacency g).1 <;> simp
      have ha : (check_adjacency g).2 = [] := check_adjacency_flag_false g h2f
      cases hc : check_connectedness g with
      | none =>
        rw [hc] at h
        simp at h
      | some e3 =>
        obtain ⟨b3, tr3⟩ := e3
        rw [hc] at h
        dsimp only at h
        injection h with h'
        injection h' with hb htr
        subst htr
        refine ⟨?_, fun hT => absurd hT h1, fun _ hT => absurd hT h2⟩
        rw [he, ha]
        simpa using check_connectedness_trace_le g b3 tr3 hc

theorem check_graph_short_circuit_amended_witness :
    ([Violation.badSource "C"] : List (Violation String)).length ≤ 1 ∧
      ((check_entries gBad "C" "A").1 = true →
        [Violation.badSource "C"] = (check_entries gBad "C" "A").2) ∧
      ((check_entries gBad "C" "A").1 = false → (check_adjacency gBad).1 = true →
        [Violation.badSource "C"] = (check_adjacency gBad).2) :=
  @check_graph_short_circuit_amended String _ gBad "C" "A" true
    [Violation.badSource "C"] (by decide)

/-- C5 counterexample: on the graph `{A: [B]}` with source `C` and target `A`,
`check_graph` stops at the failed entry check and its trace is only the bad-source
message, although running `check_adjacency` by itself detects the dangling neighbor
`B` — that detected violation is not collectible from the aggregate run. -/
theorem check_graph_short_circuit_counterexample :
    check_graph gBad "C" "A" = some (true, [.badSource "C"]) ∧
      check_adjacency gBad = (true, [.notAKey "B"]) ∧
      Violation.notAKey "B" ∉ [Violation.badSource "C"] := by decide

/-- C6 (amended): on a guess that neither wins nor is a subset of some stored path's
node set, the mistake count is incremented and the guess is removed from the guess set;
when the incremented count reaches the budget the turn ends in `lost`, revealing the
*narrowed remaining* trimmed paths (not the full path set): the reveal prints
`remaining_paths` with count `remaining.length` and printed length the length of its
first *trimmed* path (one less than the distance), each walk shown as
`source :: path ++ [target]`. -/
theorem mistake_turn_amended [DecidableEq α] (source target : α) (maxM : Nat)
    (st : GameState α) (guess : α) (r : List α) (rs : List (List α))
    (hwin : ∀ p ∈ st.paths, ¬(p.length = (insert guess st.guesses).card ∧
      p.toFinset = insert guess st.guesses))
    (hsub : ∀ p ∈ st.paths, ¬(insert guess st.guesses ⊆ p.toFinset))
    (hrem : st.remaining = r :: rs) :
    (st.mistakes + 1 ≠ maxM → gameStep source target maxM st guess =
      some (.mistake ⟨st.paths, st.remaining,
        (insert guess st.guesses).erase guess, st.mistakes + 1⟩)) ∧
    (st.mistakes + 1 = maxM → gameStep source target maxM st guess =
      some (.lost ⟨(r :: rs).length, r.length,
          (r :: rs).map (fun q => source :: (q ++ [target]))⟩
        ⟨st.paths, st.remaining, (insert guess st.guesses).erase guess,
          st.mistakes + 1⟩)) := by
  have h := gameStep_mistake source target maxM st guess hwin hsub
  constructor
  · intro hne
    rw [h, if_neg hne]
  · intro heq
    rw [h, if_pos heq, hrem]
    simp [print_paths_out]

theorem mistake_turn_amended_witness :
    gameStep 0 4 3 (⟨[[1, 3], [2, 3]], [[1, 3]], {1}, 2⟩ : GameState ℕ) 9 =
      some (.lost ⟨1, 2, [[0, 1, 3, 4]]⟩ ⟨[[1, 3], [2, 3]], [[1, 3]], {1}, 3⟩) := by
  have h := (mistake_turn_amended 0 4 3 ⟨[[1, 3], [2, 3]], [[1, 3]], {1}, 2⟩ 9 [1, 3] []
    (by decide) (by decide) rfl).2 rfl
  exact h.trans (by decide)

/-- C6 counterexample: on the two-path graph (`X,A,B,C,Z` = `0,1,2,3,4`) `bfs` finds
the two paths `[[A,C,Z], [B,C,Z]]` at distance 3; after accepting guess `A` and three
wrong guesses `9`, the session is lost but the reveal shows 1 path (not the full
2-element path set), misses the walk through `B`, and prints length 2 (the trimmed
length), not the distance 3. -/
theorem mistake_reveal_counterexample :
    bfs gB 0 4 = some ([[1, 3, 4], [2, 3, 4]], 3) ∧
      gameRun 0 4 3 (initGame [[1, 3, 4], [2, 3, 4]]) [1, 9, 9, 9] =
        some (.lost ⟨1, 2, [[0, 1, 3, 4]]⟩ ⟨[[1, 3], [2, 3]], [[1, 3]], {1}, 3⟩) ∧
      (1 : ℕ) ≠ ([[1, 3, 4], [2, 3, 4]] : List (List ℕ)).length ∧
      ([0, 2, 3, 4] : List ℕ) ∉ [[0, 1, 3, 4]] ∧ (2 : ℕ) ≠ 3 := by decide

/-- C7: on a valid graph with distinct source and target keys, `bfs` hits none of its
modelled runtime errors (`none` covers every KeyError, pop from an empty queue,
`None`-sentinel misuse, and fuel exhaustion of each loop): it returns a value. -/
theorem bfs_no_runtime_error [LinearOrder α] {g : Graph α} {s t : α}
    (hv : ValidGraph g) (hs : s ∈ keys g) (ht : t ∈ keys g) (hst : s ≠ t) :
    (bfs g s t).isSome := by
  obtain ⟨paths, d, hb, -, -, -, -, -⟩ := bfs_main hv hs ht hst
  simp [hb]

theorem bfs_no_runtime_error_witness : (bfs exG 0 2).isSome :=
  bfs_no_runtime_error exG_valid (by decide) (by decide) (by decide)

/-- C8: whenever `bfs` returns a path list, that list is sorted in ascending
lexicographic order on label sequences, and the result is deterministic: any value
`bfs` returns on the same graph, source and target is that same result. -/
theorem bfs_sorted_deterministic [LinearOrder α] {g : Graph α} {s t : α}
    {paths : List (List α)} {d : Nat} (hb : bfs g s t = some (paths, d)) :
    List.Sorted (· ≤ ·) paths ∧ ∀ r, bfs g s t = r → r = some (paths, d) :=
  ⟨bfs_sorted g s t paths d hb, fun _ hr => hr.symm.trans hb⟩

theorem bfs_sorted_deterministic_witness :
    List.Sorted (· ≤ ·) ([[1, 2]] : List (List ℕ)) ∧
      bfs exG 0 2 = some ([[1, 2]], 2) :=
  ⟨(@bfs_sorted_deterministic ℕ _ exG 0 2 [[1, 2]] 2 (by decide)).1,
   (@bfs_sorted_deterministic ℕ _ exG 0 2 [[1, 2]] 2 (by decide)).2 (bfs exG 0 2) rfl⟩

/-- C9: the presenter output equals the spec's display form — the known (guessed)
nodes in original order separated by `" -> "`, with every maximal run of unknown nodes
collapsed into a single `"..."` marker (`collapseGaps`/`joinArrows` are modelled from
the spec's words); in particular path `[A, B, C, D]` with known set `{A, D}` renders as
`"A -> ... -> D"`, one gap marker for the two hidden nodes. -/
theorem presenter_collapses_gaps :
    (∀ (path : List String) (guesses : Finset String),
      print_incomplete_path path guesses = joinArrows (collapseGaps guesses path)) ∧
      print_incomplete_path ["A", "B", "C", "D"] {"A", "D"} = "A -> ... -> D" :=
  ⟨print_incomplete_path_eq, by decide⟩

/-- C10: in a session over a valid graph whose stored paths are the target-trimmed
`bfs` paths, guessing the source label or the target label always counts as a mistake:
no trimmed path contains the source (paths exclude it) or the target (it was popped),
so the win and subset checks both fail, the mistake count is incremented, the guess is
removed from the guess set, and the turn ends in `mistake` — or in `lost` when the
budget is reached. -/
theorem guess_source_or_target_is_mistake [LinearOrder α] {g : Graph α} {s t : α}
    {paths : List (List α)} {d : Nat} (hv : ValidGraph g) (hs : s ∈ keys g)
    (ht : t ∈ keys g) (hst : s ≠ t) (hb : bfs g s t = some (paths, d))
    (maxM : Nat) (rem : List (List α)) (G : Finset α) (m : Nat) (guess : α)
    (hg : guess = s ∨ guess = t) :
    gameStep s t maxM ⟨paths.map List.dropLast, rem, G, m⟩ guess =
      (if m + 1 = maxM then
        match print_paths_out s t rem with
        | none => none
        | some out => some (.lost out ⟨paths.map List.dropLast, rem,
            (insert guess G).erase guess, m + 1⟩)
      else some (.mistake ⟨paths.map List.dropLast, rem,
        (insert guess G).erase guess, m + 1⟩)) := by
  obtain ⟨-, hshape⟩ := bfs_path_shape hv hs ht hst hb
  have hnotin : ∀ p ∈ paths.map List.dropLast, guess ∉ p.toFinset := by
    intro p hp
    obtain ⟨q, hq, rfl⟩ := List.mem_map.mp hp
    obtain ⟨-, -, -, -, -, hsq, htq⟩ := hshape q hq
    rcases hg with rfl | rfl
    · simp only [List.mem_toFinset]
      intro hmem
      exact hsq (List.dropLast_subset q hmem)
    · simp only [List.mem_toFinset]
      exact htq
  exact gameStep_mistake s t maxM ⟨paths.map List.dropLast, rem, G, m⟩ guess
    (fun p hp hconj => hnotin p hp (by rw [hconj.2]; exact Finset.mem_insert_self guess G))
    (fun p hp hsubs => hnotin p hp (hsubs (Finset.mem_insert_self guess G)))

theorem guess_source_or_target_is_mistake_witness :
    gameStep 0 2 3 (⟨[[1]], [[1]], ∅, 0⟩ : GameState ℕ) 0 =
      some (.mistake ⟨[[1]], [[1]], ∅, 1⟩) := by
  have h := @guess_source_or_target_is_mistake ℕ _ exG 0 2 [[1, 2]] 2 exG_valid
    (by decide) (by decide) (by decide) (by decide) 3 [[1]] ∅ 0 0 (Or.inl rfl)
  exact h.trans (by decide)

end Travle


